import Mathlib

/-!
# GraphCrack — verification of the JWT token/signature core

Shallow embedding of the JWT utilities of `src/utils/jwt_utils.py`
(`JWTUtils`) together with spec-level models of the secret bruteforce
core (`core/exploit/jwt_bruteforce.py` is referenced by the repository
but its source file is not present; those parts are modelled from the
specification, and are marked as such in their doc comments).

Python strings are modelled as `List Char` (a Python `str` is a sequence
of Unicode code points).  Byte strings are `List Nat` with every element
`< 256`.  The HMAC primitive (external `hmac`/`hashlib` libraries, used
through PyJWT) is modelled symbolically as an ideal MAC: an injective
function of (algorithm, key, message), producing an opaque byte string.
-/

/-- Python `str` model: a sequence of Unicode code points. -/
abbrev Str := List Char

/-- Coerce a Lean string literal to the Python string model. -/
def chars (s : String) : Str := s.data

/-- A byte string: list of naturals, meaningful when all `< 256`. -/
abbrev Bytes := List Nat

/-- All elements of a byte string are genuine bytes. -/
def IsBytes (bs : Bytes) : Prop := ∀ b ∈ bs, b < 256

/-! ## Dot splitting — Python `str.split(".")` -/

/-- Extend the first piece of a split with one more character. -/
def consPiece (c : Char) : List Str → List Str
  | [] => [[c]]
  | p :: ps => (c :: p) :: ps

/-- Python `s.split(".")`: split on every dot, keeping empty pieces. -/
def splitDots : Str → List Str
  | [] => [[]]
  | c :: rest =>
    if c = '.' then [] :: splitDots rest
    else consPiece c (splitDots rest)

/-- Python `".".join(parts)`. -/
def joinDots : List Str → Str
  | [] => []
  | [p] => p
  | p :: ps => p ++ '.' :: joinDots ps

theorem splitDots_ne_nil (s : Str) : splitDots s ≠ [] := by
  induction s with
  | nil => simp [splitDots]
  | cons c rest ih =>
    simp only [splitDots]
    split
    · simp
    · unfold consPiece
      cases h : splitDots rest <;> simp

theorem splitDots_append_dot (a b : Str) (ha : '.' ∉ a) :
    splitDots (a ++ '.' :: b) = a :: splitDots b := by
  induction a with
  | nil => simp [splitDots]
  | cons c rest ih =>
    simp only [List.mem_cons, not_or] at ha
    simp only [List.cons_append, List.append_eq, splitDots, if_neg (Ne.symm ha.1)]
    rw [ih ha.2]
    rfl

theorem splitDots_no_dot (a : Str) (ha : '.' ∉ a) :
    splitDots a = [a] := by
  induction a with
  | nil => simp [splitDots]
  | cons c rest ih =>
    simp only [List.mem_cons, not_or] at ha
    simp only [splitDots, if_neg (Ne.symm ha.1)]
    rw [ih ha.2]
    rfl

/-- Splitting a three-segment compact form recovers the segments. -/
theorem splitDots_three (a b c : Str) (ha : '.' ∉ a) (hb : '.' ∉ b) (hc : '.' ∉ c) :
    splitDots (a ++ '.' :: (b ++ '.' :: c)) = [a, b, c] := by
  rw [splitDots_append_dot a _ ha, splitDots_append_dot b c hb, splitDots_no_dot c hc]

/-! ## Base64url (Python `base64.urlsafe_b64encode` / `urlsafe_b64decode`)

The decoder is strict about the base64 alphabet and grouping; CPython's
non-strict mode additionally discards characters outside the alphabet
before decoding.  All concrete inputs evaluated below stay inside the
common behaviour. -/

/-- The base64url alphabet (RFC 4648 §5). -/
def b64Chars : List Char :=
  chars "ABCDEFGHIJKLMNOPQRSTUVWXYZabcdefghijklmnopqrstuvwxyz0123456789-_"

/-- The alphabet character for a 6-bit value. -/
def b64Char (n : Nat) : Char := b64Chars.getD n '='

/-- The 6-bit value of an alphabet character, `none` outside the alphabet. -/
def b64Val (c : Char) : Option Nat := b64Chars.findIdx? (· = c)

theorem b64Val_b64Char : ∀ n, n < 64 → b64Val (b64Char n) = some n := by decide

theorem b64Char_ne_eq : ∀ n, n < 64 → b64Char n ≠ '=' := by decide

theorem b64Char_ne_dot : ∀ n, n < 64 → b64Char n ≠ '.' := by decide

/-- Base64url-encode a byte string, with `=` padding (as
`base64.urlsafe_b64encode` produces). -/
def b64Encode : Bytes → Str
  | [] => []
  | [a] => [b64Char (a / 4), b64Char (a % 4 * 16), '=', '=']
  | [a, b] => [b64Char (a / 4), b64Char (a % 4 * 16 + b / 16), b64Char (b % 16 * 4), '=']
  | a :: b :: c :: rest =>
    b64Char (a / 4) :: b64Char (a % 4 * 16 + b / 16) ::
      b64Char (b % 16 * 4 + c / 64) :: b64Char (c % 64) :: b64Encode rest

/-- Base64url-decode a padded string into bytes; `none` on an invalid
alphabet character or invalid grouping (CPython raises `binascii.Error`). -/
def b64Decode : Str → Option Bytes
  | [] => some []
  | c0 :: c1 :: c2 :: c3 :: rest =>
    if c2 = '=' then
      if c3 = '=' ∧ rest = [] then do
        let v0 ← b64Val c0
        let v1 ← b64Val c1
        pure [v0 * 4 + v1 / 16]
      else none
    else if c3 = '=' then
      if rest = [] then do
        let v0 ← b64Val c0
        let v1 ← b64Val c1
        let v2 ← b64Val c2
        pure [v0 * 4 + v1 / 16, v1 % 16 * 16 + v2 / 4]
      else none
    else do
      let v0 ← b64Val c0
      let v1 ← b64Val c1
      let v2 ← b64Val c2
      let v3 ← b64Val c3
      let tail ← b64Decode rest
      pure ((v0 * 4 + v1 / 16) :: (v1 % 16 * 16 + v2 / 4) :: (v2 % 4 * 64 + v3) :: tail)
  | _ => none

/-- Decoding inverts encoding on genuine byte strings. -/
theorem b64Decode_b64Encode (bs : Bytes) (h : IsBytes bs) :
    b64Decode (b64Encode bs) = some bs := by
  induction bs using b64Encode.induct with
  | case1 => rfl
  | case2 a =>
    have ha : a < 256 := h a (by simp)
    have h0 : a / 4 < 64 := by omega
    have h1 : a % 4 * 16 < 64 := by omega
    have e0 : a / 4 * 4 + (a % 4 * 16) / 16 = a := by omega
    simp only [b64Encode, b64Decode, if_pos rfl, and_self, if_pos,
      b64Val_b64Char _ h0, b64Val_b64Char _ h1, Option.bind_eq_bind, Option.some_bind, e0]
    rfl
  | case3 a b =>
    have ha : a < 256 := h a (by simp)
    have hb : b < 256 := h b (by simp)
    have h0 : a / 4 < 64 := by omega
    have h1 : a % 4 * 16 + b / 16 < 64 := by omega
    have h2 : b % 16 * 4 < 64 := by omega
    have e0 : a / 4 * 4 + (a % 4 * 16 + b / 16) / 16 = a := by omega
    have e1 : (a % 4 * 16 + b / 16) % 16 * 16 + (b % 16 * 4) / 4 = b := by omega
    simp only [b64Encode, b64Decode, if_neg (b64Char_ne_eq _ h2), if_pos rfl,
      b64Val_b64Char _ h0, b64Val_b64Char _ h1, b64Val_b64Char _ h2,
      Option.bind_eq_bind, Option.some_bind, e0, e1]
    simp
  | case4 a b c rest ih =>
    have ha : a < 256 := h a (by simp)
    have hb : b < 256 := h b (by simp)
    have hc : c < 256 := h c (by simp)
    have hrest : IsBytes rest := fun x hx => h x (by simp [hx])
    have h0 : a / 4 < 64 := by omega
    have h1 : a % 4 * 16 + b / 16 < 64 := by omega
    have h2 : b % 16 * 4 + c / 64 < 64 := by omega
    have h3 : c % 64 < 64 := by omega
    have e0 : a / 4 * 4 + (a % 4 * 16 + b / 16) / 16 = a := by omega
    have e1 : (a % 4 * 16 + b / 16) % 16 * 16 + (b % 16 * 4 + c / 64) / 4 = b := by omega
    have e2 : (b % 16 * 4 + c / 64) % 4 * 64 + c % 64 = c := by omega
    simp only [b64Encode, b64Decode, if_neg (b64Char_ne_eq _ h2),
      if_neg (b64Char_ne_eq _ h3), b64Val_b64Char _ h0, b64Val_b64Char _ h1,
      b64Val_b64Char _ h2, b64Val_b64Char _ h3, Option.bind_eq_bind, Option.some_bind]
    rw [ih hrest]
    simp only [Option.some_bind, e0, e1, e2]
    rfl

/-! ## Padding normalization (`_safe_b64encode` strips `=`, `_safe_b64decode` restores it) -/

/-- Python `s.rstrip("=")`. -/
def rstripEq (s : Str) : Str := (s.reverse.dropWhile (· = '=')).reverse

/-- The padding restoration `data + "=" * (-len(data) % 4)` of
`JWTUtils._safe_b64decode` (Python `(-n) % 4 = (4 - n % 4) % 4`). -/
def restorePad (s : Str) : Str := s ++ List.replicate ((4 - s.length % 4) % 4) '='

theorem dropWhileEq_no_eq (m : Str) (h : '=' ∉ m) : m.dropWhile (· = '=') = m := by
  cases m with
  | nil => rfl
  | cons x xs =>
    simp only [List.mem_cons, not_or] at h
    simp [List.dropWhile, Ne.symm h.1]

theorem rstripEq_no_eq (l : Str) (h : '=' ∉ l) : rstripEq l = l := by
  unfold rstripEq
  rw [dropWhileEq_no_eq _ (by simpa using h), List.reverse_reverse]

theorem rstripEq_append_replicate (l : Str) (k : Nat) :
    rstripEq (l ++ List.replicate k '=') = rstripEq l := by
  unfold rstripEq
  rw [List.reverse_append, List.reverse_replicate]
  congr 1
  induction k with
  | zero => simp
  | succ n ih => simp [List.replicate_succ, List.dropWhile, ih]

/-- Shape of a base64 encoding: a pad-free body followed by `=` padding,
with total length a multiple of four. -/
theorem b64Encode_shape (bs : Bytes) (h : IsBytes bs) :
    ∃ body k, b64Encode bs = body ++ List.replicate k '=' ∧ '=' ∉ body ∧
      (body.length + k) % 4 = 0 ∧ k < 4 := by
  induction bs using b64Encode.induct with
  | case1 => exact ⟨[], 0, rfl, by simp, by simp, by omega⟩
  | case2 a =>
    have ha : a < 256 := h a (by simp)
    refine ⟨[b64Char (a / 4), b64Char (a % 4 * 16)], 2, rfl, ?_, by simp, by omega⟩
    simp only [List.mem_cons, List.not_mem_nil, or_false, not_or]
    exact ⟨(b64Char_ne_eq (a / 4) (by omega)).symm, (b64Char_ne_eq (a % 4 * 16) (by omega)).symm⟩
  | case3 a b =>
    have ha : a < 256 := h a (by simp)
    have hb : b < 256 := h b (by simp)
    refine ⟨[b64Char (a / 4), b64Char (a % 4 * 16 + b / 16), b64Char (b % 16 * 4)], 1,
      rfl, ?_, by simp, by omega⟩
    simp only [List.mem_cons, List.not_mem_nil, or_false, not_or]
    exact ⟨(b64Char_ne_eq (a / 4) (by omega)).symm,
      (b64Char_ne_eq (a % 4 * 16 + b / 16) (by omega)).symm,
      (b64Char_ne_eq (b % 16 * 4) (by omega)).symm⟩
  | case4 a b c rest ih =>
    have ha : a < 256 := h a (by simp)
    have hb : b < 256 := h b (by simp)
    have hc : c < 256 := h c (by simp)
    obtain ⟨body, k, henc, hbody, hlen, hk⟩ := ih (fun x hx => h x (by simp [hx]))
    refine ⟨b64Char (a / 4) :: b64Char (a % 4 * 16 + b / 16) ::
      b64Char (b % 16 * 4 + c / 64) :: b64Char (c % 64) :: body, k, ?_, ?_, ?_, hk⟩
    · simp [b64Encode, henc]
    · simp only [List.mem_cons, not_or]
      exact ⟨(b64Char_ne_eq (a / 4) (by omega)).symm,
        (b64Char_ne_eq (a % 4 * 16 + b / 16) (by omega)).symm,
        (b64Char_ne_eq (b % 16 * 4 + c / 64) (by omega)).symm,
        (b64Char_ne_eq (c % 64) (by omega)).symm, hbody⟩
    · simp only [List.length_cons]
      omega

/-- The base64url alphabet never produces a dot, so encoded segments are
dot-free. -/
theorem b64Encode_no_dot (bs : Bytes) (h : IsBytes bs) : '.' ∉ b64Encode bs := by
  induction bs using b64Encode.induct with
  | case1 => simp [b64Encode]
  | case2 a =>
    have ha : a < 256 := h a (by simp)
    simp only [b64Encode, List.mem_cons, List.not_mem_nil, or_false, not_or]
    refine ⟨(b64Char_ne_dot (a / 4) (by omega)).symm,
      (b64Char_ne_dot (a % 4 * 16) (by omega)).symm, by decide, by decide⟩
  | case3 a b =>
    have ha : a < 256 := h a (by simp)
    have hb : b < 256 := h b (by simp)
    simp only [b64Encode, List.mem_cons, List.not_mem_nil, or_false, not_or]
    refine ⟨(b64Char_ne_dot (a / 4) (by omega)).symm,
      (b64Char_ne_dot (a % 4 * 16 + b / 16) (by omega)).symm,
      (b64Char_ne_dot (b % 16 * 4) (by omega)).symm, by decide⟩
  | case4 a b c rest ih =>
    have ha : a < 256 := h a (by simp)
    have hb : b < 256 := h b (by simp)
    have hc : c < 256 := h c (by simp)
    have hrest := ih (fun x hx => h x (by simp [hx]))
    simp only [b64Encode, List.mem_cons, not_or]
    exact ⟨(b64Char_ne_dot (a / 4) (by omega)).symm,
      (b64Char_ne_dot (a % 4 * 16 + b / 16) (by omega)).symm,
      (b64Char_ne_dot (b % 16 * 4 + c / 64) (by omega)).symm,
      (b64Char_ne_dot (c % 64) (by omega)).symm, hrest⟩

/-- Restoring padding after stripping it recovers the padded encoding. -/
theorem restorePad_rstripEq_b64Encode (bs : Bytes) (h : IsBytes bs) :
    restorePad (rstripEq (b64Encode bs)) = b64Encode bs := by
  obtain ⟨body, k, henc, hbody, hlen, hk⟩ := b64Encode_shape bs h
  rw [henc, rstripEq_append_replicate, rstripEq_no_eq body hbody]
  unfold restorePad
  congr 2
  omega

/-- A stripped encoding contains no padding character. -/
theorem rstripEq_b64Encode_no_eq (bs : Bytes) (h : IsBytes bs) :
    '=' ∉ rstripEq (b64Encode bs) := by
  obtain ⟨body, k, henc, hbody, _, _⟩ := b64Encode_shape bs h
  rw [henc, rstripEq_append_replicate, rstripEq_no_eq body hbody]
  exact hbody

/-- A stripped encoding is still dot-free. -/
theorem rstripEq_b64Encode_no_dot (bs : Bytes) (h : IsBytes bs) :
    '.' ∉ rstripEq (b64Encode bs) := by
  obtain ⟨body, k, henc, hbody, _, _⟩ := b64Encode_shape bs h
  rw [henc, rstripEq_append_replicate, rstripEq_no_eq body hbody]
  intro hdot
  exact b64Encode_no_dot bs h (by rw [henc]; exact List.mem_append_left _ hdot)

/-- The padless codec round-trips on byte strings. -/
theorem b64Decode_restorePad_rstripEq (bs : Bytes) (h : IsBytes bs) :
    b64Decode (restorePad (rstripEq (b64Encode bs))) = some bs := by
  rw [restorePad_rstripEq_b64Encode bs h]
  exact b64Decode_b64Encode bs h

/-! ## UTF-8 (Python `str.encode()` / `bytes.decode("utf-8")`) -/

/-- UTF-8 encoding of a single code point. -/
def utf8EncodeChar (c : Char) : Bytes :=
  let n := c.toNat
  if n < 0x80 then [n]
  else if n < 0x800 then [0xC0 + n / 64, 0x80 + n % 64]
  else if n < 0x10000 then [0xE0 + n / 4096, 0x80 + n / 64 % 64, 0x80 + n % 64]
  else [0xF0 + n / 262144, 0x80 + n / 4096 % 64, 0x80 + n / 64 % 64, 0x80 + n % 64]

/-- Python `s.encode()` (UTF-8). -/
def utf8Encode : Str → Bytes
  | [] => []
  | c :: rest => utf8EncodeChar c ++ utf8Encode rest

/-- Decode one UTF-8 sequence, rejecting stray continuation bytes,
overlong encodings, surrogates and out-of-range values (as CPython's
strict `bytes.decode("utf-8")` does). -/
def utf8DecodeChar : Bytes → Option (Char × Bytes)
  | [] => none
  | b0 :: rest =>
    if b0 < 0x80 then some (Char.ofNat b0, rest)
    else if b0 < 0xC2 then none
    else if b0 < 0xE0 then
      match rest with
      | b1 :: rest' =>
        if 0x80 ≤ b1 ∧ b1 < 0xC0 then
          some (Char.ofNat ((b0 - 0xC0) * 64 + (b1 - 0x80)), rest')
        else none
      | _ => none
    else if b0 < 0xF0 then
      match rest with
      | b1 :: b2 :: rest' =>
        if (0x80 ≤ b1 ∧ b1 < 0xC0) ∧ (0x80 ≤ b2 ∧ b2 < 0xC0) ∧
            (b0 = 0xE0 → 0xA0 ≤ b1) ∧ (b0 = 0xED → b1 < 0xA0) then
          some (Char.ofNat ((b0 - 0xE0) * 4096 + (b1 - 0x80) * 64 + (b2 - 0x80)), rest')
        else none
      | _ => none
    else if b0 < 0xF5 then
      match rest with
      | b1 :: b2 :: b3 :: rest' =>
        if (0x80 ≤ b1 ∧ b1 < 0xC0) ∧ (0x80 ≤ b2 ∧ b2 < 0xC0) ∧ (0x80 ≤ b3 ∧ b3 < 0xC0) ∧
            (b0 = 0xF0 → 0x90 ≤ b1) ∧ (b0 = 0xF4 → b1 < 0x90) then
          some (Char.ofNat ((b0 - 0xF0) * 262144 + (b1 - 0x80) * 4096 +
            (b2 - 0x80) * 64 + (b3 - 0x80)), rest')
        else none
      | _ => none
    else none

/-- Fuel-driven UTF-8 decoding loop. -/
def utf8DecodeAux : Nat → Bytes → Option Str
  | _, [] => some []
  | 0, _ :: _ => none
  | fuel + 1, b :: rest =>
    match utf8DecodeChar (b :: rest) with
    | none => none
    | some (c, rest') => (utf8DecodeAux fuel rest').map (c :: ·)

/-- Python `bytes.decode("utf-8")`; `none` models `UnicodeDecodeError`. -/
def utf8Decode (bs : Bytes) : Option Str := utf8DecodeAux bs.length bs

/-- Every character's code point is a valid scalar value. -/
theorem char_valid (c : Char) :
    c.toNat < 0xd800 ∨ (0xe000 ≤ c.toNat ∧ c.toNat < 0x110000) := c.valid

/-- Decoding one character undoes encoding one character. -/
theorem utf8DecodeChar_utf8EncodeChar (c : Char) (rest : Bytes) :
    utf8DecodeChar (utf8EncodeChar c ++ rest) = some (c, rest) := by
  have hv := char_valid c
  unfold utf8EncodeChar
  by_cases h1 : c.toNat < 0x80
  · simp only [if_pos h1, List.cons_append, List.nil_append, utf8DecodeChar, if_pos h1,
      Char.ofNat_toNat]
  · by_cases h2 : c.toNat < 0x800
    · have e1 : ¬ (0xC0 + c.toNat / 64 < 0x80) := by omega
      have e2 : ¬ (0xC0 + c.toNat / 64 < 0xC2) := by omega
      have e3 : 0xC0 + c.toNat / 64 < 0xE0 := by omega
      have e4 : 0x80 ≤ 0x80 + c.toNat % 64 ∧ 0x80 + c.toNat % 64 < 0xC0 := by omega
      have e5 : (0xC0 + c.toNat / 64 - 0xC0) * 64 + (0x80 + c.toNat % 64 - 0x80) = c.toNat := by
        omega
      simp only [if_neg h1, if_pos h2, List.cons_append, List.nil_append, utf8DecodeChar,
        if_neg e1, if_neg e2, if_pos e3, if_pos e4, e5, Char.ofNat_toNat]
    · by_cases h3 : c.toNat < 0x10000
      · have hs : c.toNat < 0xd800 ∨ 0xe000 ≤ c.toNat := by omega
        have e1 : ¬ (0xE0 + c.toNat / 4096 < 0x80) := by omega
        have e2 : ¬ (0xE0 + c.toNat / 4096 < 0xC2) := by omega
        have e3 : ¬ (0xE0 + c.toNat / 4096 < 0xE0) := by omega
        have e4 : 0xE0 + c.toNat / 4096 < 0xF0 := by omega
        have e5 : (0x80 ≤ 0x80 + c.toNat / 64 % 64 ∧ 0x80 + c.toNat / 64 % 64 < 0xC0) ∧
            (0x80 ≤ 0x80 + c.toNat % 64 ∧ 0x80 + c.toNat % 64 < 0xC0) ∧
            (0xE0 + c.toNat / 4096 = 0xE0 → 0xA0 ≤ 0x80 + c.toNat / 64 % 64) ∧
            (0xE0 + c.toNat / 4096 = 0xED → 0x80 + c.toNat / 64 % 64 < 0xA0) := by
          refine ⟨by omega, by omega, ?_, ?_⟩ <;> omega
        have e6 : (0xE0 + c.toNat / 4096 - 0xE0) * 4096 + (0x80 + c.toNat / 64 % 64 - 0x80) * 64 +
            (0x80 + c.toNat % 64 - 0x80) = c.toNat := by omega
        simp only [if_neg h1, if_neg h2, if_pos h3, List.cons_append, List.nil_append,
          utf8DecodeChar, if_neg e1, if_neg e2, if_neg e3, if_pos e4, if_pos e5, e6,
          Char.ofNat_toNat]
      · have h4 : c.toNat < 0x110000 := by omega
        have e1 : ¬ (0xF0 + c.toNat / 262144 < 0x80) := by omega
        have e2 : ¬ (0xF0 + c.toNat / 262144 < 0xC2) := by omega
        have e3 : ¬ (0xF0 + c.toNat / 262144 < 0xE0) := by omega
        have e4 : ¬ (0xF0 + c.toNat / 262144 < 0xF0) := by omega
        have e5 : 0xF0 + c.toNat / 262144 < 0xF5 := by omega
        have e6 : (0x80 ≤ 0x80 + c.toNat / 4096 % 64 ∧ 0x80 + c.toNat / 4096 % 64 < 0xC0) ∧
            (0x80 ≤ 0x80 + c.toNat / 64 % 64 ∧ 0x80 + c.toNat / 64 % 64 < 0xC0) ∧
            (0x80 ≤ 0x80 + c.toNat % 64 ∧ 0x80 + c.toNat % 64 < 0xC0) ∧
            (0xF0 + c.toNat / 262144 = 0xF0 → 0x90 ≤ 0x80 + c.toNat / 4096 % 64) ∧
            (0xF0 + c.toNat / 262144 = 0xF4 → 0x80 + c.toNat / 4096 % 64 < 0x90) := by
          refine ⟨by omega, by omega, by omega, ?_, ?_⟩ <;> omega
        have e7 : (0xF0 + c.toNat / 262144 - 0xF0) * 262144 +
            (0x80 + c.toNat / 4096 % 64 - 0x80) * 4096 +
            (0x80 + c.toNat / 64 % 64 - 0x80) * 64 + (0x80 + c.toNat % 64 - 0x80) = c.toNat := by
          omega
        simp only [if_neg h1, if_neg h2, if_neg h3, List.cons_append, List.nil_append,
          utf8DecodeChar, if_neg e1, if_neg e2, if_neg e3, if_neg e4, if_pos e5, if_pos e6, e7,
          Char.ofNat_toNat]

theorem utf8EncodeChar_length_pos (c : Char) : 0 < (utf8EncodeChar c).length := by
  simp only [utf8EncodeChar]
  split
  · simp
  · split
    · simp
    · split <;> simp

theorem utf8EncodeChar_isBytes (c : Char) : IsBytes (utf8EncodeChar c) := by
  have hv := char_valid c
  simp only [utf8EncodeChar]
  split
  · intro b hb
    simp only [List.mem_singleton] at hb
    omega
  · split
    · intro b hb
      simp only [List.mem_cons, List.not_mem_nil, or_false] at hb
      rcases hb with hb | hb <;> omega
    · split
      · intro b hb
        simp only [List.mem_cons, List.not_mem_nil, or_false] at hb
        rcases hb with hb | hb | hb <;> omega
      · intro b hb
        simp only [List.mem_cons, List.not_mem_nil, or_false] at hb
        rcases hb with hb | hb | hb | hb <;> omega

theorem utf8Encode_isBytes (s : Str) : IsBytes (utf8Encode s) := by
  induction s with
  | nil => intro b hb; simp [utf8Encode] at hb
  | cons c rest ih =>
    intro b hb
    simp only [utf8Encode, List.mem_append] at hb
    rcases hb with hb | hb
    · exact utf8EncodeChar_isBytes c b hb
    · exact ih b hb

theorem utf8DecodeAux_utf8Encode (s : Str) :
    ∀ fuel, (utf8Encode s).length ≤ fuel → utf8DecodeAux fuel (utf8Encode s) = some s := by
  induction s with
  | nil => intro fuel _; cases fuel <;> rfl
  | cons c rest ih =>
    intro fuel hfuel
    have hlen : (utf8Encode (c :: rest)).length =
        (utf8EncodeChar c).length + (utf8Encode rest).length := by
      simp [utf8Encode]
    have hpos := utf8EncodeChar_length_pos c
    obtain ⟨f, rfl⟩ : ∃ f, fuel = f + 1 := ⟨fuel - 1, by omega⟩
    have hne : utf8Encode (c :: rest) ≠ [] := by
      intro he
      rw [he] at hlen
      simp at hlen
      omega
    obtain ⟨b, bs, hbs⟩ : ∃ b bs, utf8Encode (c :: rest) = b :: bs := by
      cases he : utf8Encode (c :: rest) with
      | nil => exact absurd he hne
      | cons b bs => exact ⟨b, bs, rfl⟩
    rw [hbs]
    have hdec : utf8DecodeChar (b :: bs) = some (c, utf8Encode rest) := by
      rw [← hbs]
      show utf8DecodeChar (utf8Encode (c :: rest)) = _
      have : utf8Encode (c :: rest) = utf8EncodeChar c ++ utf8Encode rest := rfl
      rw [this]
      exact utf8DecodeChar_utf8EncodeChar c (utf8Encode rest)
    simp only [utf8DecodeAux, hdec]
    rw [ih f (by rw [hbs] at hlen hfuel; simp at hlen hfuel; omega)]
    rfl

/-- UTF-8 decoding inverts encoding on every string. -/
theorem utf8Decode_utf8Encode (s : Str) : utf8Decode (utf8Encode s) = some s :=
  utf8DecodeAux_utf8Encode s _ le_rfl

/-- UTF-8 encoding is injective. -/
theorem utf8Encode_injective : Function.Injective utf8Encode := by
  intro a b hab
  have ha := utf8Decode_utf8Encode a
  have hb := utf8Decode_utf8Encode b
  rw [hab] at ha
  rw [ha] at hb
  exact Option.some_injective _ hb

/-! ## JSON (Python `json.dumps` / `json.loads`)

The JSON universe is restricted to what the repository's tokens carry:
objects, arrays, strings, integers, booleans and null (JSON floats are
outside the model).  `dumps` emits non-ASCII characters raw (CPython's
default `ensure_ascii=True` would `\u`-escape them; both parse back to
the same value).  Lone surrogate escapes are rejected by the parser
(Lean `Char` carries only scalar values). -/

inductive Json where
  | str (s : Str)
  | num (n : Int)
  | bool (b : Bool)
  | null
  | arr (xs : List Json)
  | obj (kvs : List (Str × Json))

/-- Python `d.get(k)` on a parsed JSON object. -/
def objGet (kvs : List (Str × Json)) (k : Str) : Option Json :=
  (kvs.find? (fun p => p.1 = k)).map (·.2)

/-- Python `d[k] = v`: replace in place if the key exists (keeping its
position), otherwise append. -/
def objInsert (k : Str) (v : Json) : List (Str × Json) → List (Str × Json)
  | [] => [(k, v)]
  | (k', v') :: rest => if k' = k then (k', v) :: rest else (k', v') :: objInsert k v rest

/-- Python `base.update(upd)` on dicts. -/
def objUpdate (base upd : List (Str × Json)) : List (Str × Json) :=
  upd.foldl (fun acc p => objInsert p.1 p.2 acc) base

/-- Keys of an object are pairwise distinct (a Python dict invariant). -/
def keysDistinct : List (Str × Json) → Bool
  | [] => true
  | (k, _) :: rest => rest.all (fun p => p.1 ≠ k) && keysDistinct rest

mutual
/-- Well-formedness: every object in the value has distinct keys (true
of every value a Python dict/`json.loads` can produce). -/
def Json.wf : Json → Bool
  | .str _ => true
  | .num _ => true
  | .bool _ => true
  | .null => true
  | .arr xs => wfList xs
  | .obj kvs => keysDistinct kvs && wfKvs kvs

def wfList : List Json → Bool
  | [] => true
  | x :: rest => x.wf && wfList rest

def wfKvs : List (Str × Json) → Bool
  | [] => true
  | (_, v) :: rest => v.wf && wfKvs rest
end

/-- Is the value a JSON object (a Python mapping)? -/
def Json.isObj : Json → Bool
  | .obj _ => true
  | _ => false

/-! ### Serialization (`json.dumps`) -/

/-- Lowercase hexadecimal digit. -/
def hexDigit (n : Nat) : Char := if n < 10 then Char.ofNat (48 + n) else Char.ofNat (87 + n)

/-- Decimal digit character. -/
def digitChar (n : Nat) : Char := Char.ofNat (48 + n)

/-- Decimal digits, fuel-driven so the definition evaluates by kernel
reduction (`n + 1` units of fuel always suffice). -/
def natDigitsAux : Nat → Nat → Str
  | 0, _ => []
  | fuel + 1, n =>
    if n < 10 then [digitChar n] else natDigitsAux fuel (n / 10) ++ [digitChar (n % 10)]

/-- Decimal digits of a natural number, most significant first. -/
def natDigits (n : Nat) : Str := natDigitsAux (n + 1) n

/-- Python `repr` of an int, as `json.dumps` emits it. -/
def dumpInt : Int → Str
  | Int.ofNat n => natDigits n
  | Int.negSucc m => '-' :: natDigits (m + 1)

/-- JSON string escaping as `json.dumps` performs it (shorthand escapes
for the common controls, `\uXXXX` for the rest). -/
def escapeChar (c : Char) : Str :=
  if c = '"' then ['\\', '"']
  else if c = '\\' then ['\\', '\\']
  else if c = '\n' then ['\\', 'n']
  else if c = '\t' then ['\\', 't']
  else if c = '\r' then ['\\', 'r']
  else if c = Char.ofNat 8 then ['\\', 'b']
  else if c = Char.ofNat 12 then ['\\', 'f']
  else if c.toNat < 0x20 then ['\\', 'u', '0', '0', hexDigit (c.toNat / 16), hexDigit (c.toNat % 16)]
  else [c]

def escapeStr : Str → Str
  | [] => []
  | c :: rest => escapeChar c ++ escapeStr rest

/-- A JSON string literal: `"` + escaped body + `"`. -/
def dumpString (s : Str) : Str := '"' :: (escapeStr s ++ ['"'])

mutual
/-- `json.dumps(j, separators=(isep, ksep))`. -/
def dumpsWith (isep ksep : Str) : Json → Str
  | .str s => dumpString s
  | .num n => dumpInt n
  | .bool true => chars "true"
  | .bool false => chars "false"
  | .null => chars "null"
  | .arr xs => '[' :: (dumpsArr isep ksep xs ++ [']'])
  | .obj kvs => '\x7b' :: (dumpsObj isep ksep kvs ++ ['\x7d'])

def dumpsArr (isep ksep : Str) : List Json → Str
  | [] => []
  | [x] => dumpsWith isep ksep x
  | x :: rest => dumpsWith isep ksep x ++ isep ++ dumpsArr isep ksep rest

def dumpsObj (isep ksep : Str) : List (Str × Json) → Str
  | [] => []
  | [(k, v)] => dumpString k ++ ksep ++ dumpsWith isep ksep v
  | (k, v) :: rest => dumpString k ++ ksep ++ dumpsWith isep ksep v ++ isep ++ dumpsObj isep ksep rest
end

/-- `json.dumps(j)` with the stdlib default separators `(", ", ": ")`
(used by `jwt_utils`). -/
def dumps (j : Json) : Str := dumpsWith (chars ", ") (chars ": ") j

/-- `json.dumps(j, separators=(",", ":"))` (used by PyJWT). -/
def dumpsCompact (j : Json) : Str := dumpsWith (chars ",") (chars ":") j

/-! ### Parsing (`json.loads`) -/

/-- JSON whitespace. -/
def isWs (c : Char) : Bool := c = ' ' || c = '\t' || c = '\n' || c = '\r'

def skipWs : Str → Str
  | [] => []
  | c :: rest => if isWs c then skipWs rest else c :: rest

/-- Hex digit value. -/
def hexVal (c : Char) : Option Nat :=
  if '0' ≤ c ∧ c ≤ '9' then some (c.toNat - 48)
  else if 'a' ≤ c ∧ c ≤ 'f' then some (c.toNat - 87)
  else if 'A' ≤ c ∧ c ≤ 'F' then some (c.toNat - 65 + 10)
  else none

def hex4 (h1 h2 h3 h4 : Char) : Option Nat := do
  let v1 ← hexVal h1
  let v2 ← hexVal h2
  let v3 ← hexVal h3
  let v4 ← hexVal h4
  pure (v1 * 4096 + v2 * 256 + v3 * 16 + v4)

/-- Single-character escapes. -/
def unescapeChar (e : Char) : Option Char :=
  if e = '"' then some '"'
  else if e = '\\' then some '\\'
  else if e = '/' then some '/'
  else if e = 'b' then some (Char.ofNat 8)
  else if e = 'f' then some (Char.ofNat 12)
  else if e = 'n' then some '\n'
  else if e = 'r' then some '\r'
  else if e = 't' then some '\t'
  else none

/-- Parse one escape sequence (after the backslash), combining surrogate
pairs; lone surrogate escapes are rejected (Lean `Char` carries only
scalar values, CPython would produce a lone-surrogate `str`). -/
def parseEscape : Str → Option (Char × Str)
  | [] => none
  | e :: rest =>
    if e = 'u' then
      match rest with
      | h1 :: h2 :: h3 :: h4 :: rest3 =>
        match hex4 h1 h2 h3 h4 with
        | none => none
        | some n =>
          if 0xD800 ≤ n ∧ n < 0xDC00 then
            match rest3 with
            | '\\' :: 'u' :: g1 :: g2 :: g3 :: g4 :: rest4 =>
              match hex4 g1 g2 g3 g4 with
              | none => none
              | some m =>
                if 0xDC00 ≤ m ∧ m < 0xE000 then
                  some (Char.ofNat (0x10000 + (n - 0xD800) * 1024 + (m - 0xDC00)), rest4)
                else none
            | _ => none
          else if 0xDC00 ≤ n ∧ n < 0xE000 then none
          else some (Char.ofNat n, rest3)
      | _ => none
    else (unescapeChar e).map (fun c => (c, rest))

/-- Parse a JSON string body up to the closing quote, fuel-driven.  Raw
control characters are rejected (Python's strict mode). -/
def parseStringBody : Nat → Str → Option (Str × Str)
  | 0, _ => none
  | _, [] => none
  | fuel + 1, c :: rest =>
    if c = '"' then some ([], rest)
    else if c = '\\' then
      match parseEscape rest with
      | none => none
      | some (c2, rest2) =>
        match parseStringBody fuel rest2 with
        | none => none
        | some (s, r) => some (c2 :: s, r)
    else if c.toNat < 0x20 then none
    else
      match parseStringBody fuel rest with
      | none => none
      | some (s, r) => some (c :: s, r)

/-- Parse a JSON string body (the fuel `length + 1` always suffices,
since every step consumes at least one character). -/
def parseString (s : Str) : Option (Str × Str) := parseStringBody (s.length + 1) s

/-- Split leading decimal digits. -/
def takeDigits : Str → (Str × Str)
  | [] => ([], [])
  | c :: rest =>
    if '0' ≤ c ∧ c ≤ '9' then
      let (ds, r) := takeDigits rest
      (c :: ds, r)
    else ([], c :: rest)

/-- Value of a digit string. -/
def digitsVal (ds : Str) : Nat := ds.foldl (fun a c => a * 10 + (c.toNat - 48)) 0

/-- The remainder after an integer literal must not continue the number
(a fractional part or exponent is a float, outside the model). -/
def numBoundaryOk : Str → Bool
  | [] => true
  | c :: _ => ¬(c = '.' ∨ c = 'e' ∨ c = 'E')

/-- Parse a JSON integer literal (floats are outside the model: a
fractional part or exponent makes the parse fail). -/
def parseNumber (s : Str) : Option (Int × Str) :=
  let neg := s.head? == some '-'
  let s' := if neg then s.tail else s
  let (ds, rest) := takeDigits s'
  if ds = [] then none
  else if ds.head? ≠ some '0' ∨ ds = ['0'] then
    if numBoundaryOk rest then
      some (if neg then -(digitsVal ds : Int) else (digitsVal ds : Int), rest)
    else none
  else none

/-- A pending parsing task: a value, the members of an object (with the
accumulated dict), or the elements of an array. -/
inductive ParseTask where
  | val (s : Str)
  | members (s : Str) (acc : List (Str × Json))
  | elems (s : Str) (acc : List Json)

/-- JSON recursive-descent parser (`json.loads`), fuel-driven.  The three
mutually recursive parsers are merged into one fuel-structural function
so that it evaluates by kernel reduction. -/
def parseF : Nat → ParseTask → Option (Json × Str)
  | 0, _ => none
  | fuel + 1, .val s =>
    match skipWs s with
    | [] => none
    | c :: rest =>
      if c = '"' then (parseString rest).map (fun p => (Json.str p.1, p.2))
      else if c = '\x7b' then
        match skipWs rest with
        | '\x7d' :: r => some (Json.obj [], r)
        | _ => parseF fuel (.members rest [])
      else if c = '[' then
        match skipWs rest with
        | ']' :: r => some (Json.arr [], r)
        | _ => parseF fuel (.elems rest [])
      else if c = 't' then
        match rest with
        | 'r' :: 'u' :: 'e' :: r => some (Json.bool true, r)
        | _ => none
      else if c = 'f' then
        match rest with
        | 'a' :: 'l' :: 's' :: 'e' :: r => some (Json.bool false, r)
        | _ => none
      else if c = 'n' then
        match rest with
        | 'u' :: 'l' :: 'l' :: r => some (Json.null, r)
        | _ => none
      else (parseNumber (c :: rest)).map (fun p => (Json.num p.1, p.2))
  | fuel + 1, .members s acc =>
    match skipWs s with
    | '"' :: rest =>
      match parseString rest with
      | none => none
      | some (k, r1) =>
        match skipWs r1 with
        | ':' :: r2 =>
          match parseF fuel (.val r2) with
          | none => none
          | some (v, r3) =>
            match skipWs r3 with
            | ',' :: r4 => parseF fuel (.members r4 (objInsert k v acc))
            | '\x7d' :: r4 => some (Json.obj (objInsert k v acc), r4)
            | _ => none
        | _ => none
    | _ => none
  | fuel + 1, .elems s acc =>
    match parseF fuel (.val s) with
    | none => none
    | some (v, r1) =>
      match skipWs r1 with
      | ',' :: r2 => parseF fuel (.elems r2 (acc ++ [v]))
      | ']' :: r2 => some (Json.arr (acc ++ [v]), r2)
      | _ => none

/-- Parse one JSON value. -/
def parseVal (fuel : Nat) (s : Str) : Option (Json × Str) := parseF fuel (.val s)

/-- Python `json.loads`: parse one value, allow surrounding whitespace,
require the input to be fully consumed. -/
def jsonLoads (s : Str) : Option Json :=
  match parseVal (s.length + 1) s with
  | some (j, rest) => if skipWs rest = [] then some j else none
  | none => none

/-! ### Parser/serializer round-trip -/

/-- Whitespace-only strings. -/
def WsOnly (w : Str) : Prop := ∀ c ∈ w, isWs c = true

theorem skipWs_append_ws (w s : Str) (hw : WsOnly w) : skipWs (w ++ s) = skipWs s := by
  induction w with
  | nil => rfl
  | cons c rest ih =>
    simp only [List.cons_append, skipWs, if_pos (hw c (by simp))]
    exact ih (fun x hx => hw x (by simp [hx]))

theorem skipWs_not_ws (c : Char) (s : Str) (h : isWs c = false) :
    skipWs (c :: s) = c :: s := by
  simp [skipWs, h]

theorem hexVal_hexDigit : ∀ n, n < 16 → hexVal (hexDigit n) = some n := by decide

/-- A `\u00XY` escape parses back to its control character. -/
theorem parseEscape_u00 (n : Nat) (hn : n < 0x20) (X : Str) :
    parseEscape ('u' :: '0' :: '0' :: hexDigit (n / 16) :: hexDigit (n % 16) :: X) =
      some (Char.ofNat n, X) := by
  have hd : hexVal '0' = some 0 := by decide
  have hu : hexVal (hexDigit (n / 16)) = some (n / 16) := hexVal_hexDigit _ (by omega)
  have hl : hexVal (hexDigit (n % 16)) = some (n % 16) := hexVal_hexDigit _ (by omega)
  have hval : (0 : Nat) * 4096 + 0 * 256 + n / 16 * 16 + n % 16 = n := by omega
  have hns1 : ¬ (0xD800 ≤ n ∧ n < 0xDC00) := by omega
  have hns2 : ¬ (0xDC00 ≤ n ∧ n < 0xE000) := by omega
  simp only [parseEscape, if_pos rfl, hex4, hd, hu, hl, Option.bind_eq_bind,
    Option.some_bind, Option.pure_def, hval, if_neg hns1, if_neg hns2, if_true]

/-- The escaped body of a string literal parses back to the string. -/
theorem parseStringBody_escapeStr :
    ∀ (s : Str) (fuel : Nat) (rest : Str), (escapeStr s).length < fuel →
      parseStringBody fuel (escapeStr s ++ '"' :: rest) = some (s, rest) := by
  intro s
  induction s with
  | nil =>
    intro fuel rest hf
    obtain ⟨f, rfl⟩ : ∃ f, fuel = f + 1 := ⟨fuel - 1, by omega⟩
    rfl
  | cons c cs ih =>
    intro fuel rest hf
    rw [show escapeStr (c :: cs) = escapeChar c ++ escapeStr cs from rfl] at hf ⊢
    have hlc : 1 ≤ (escapeChar c).length := by
      unfold escapeChar
      repeat' split
      all_goals simp
    obtain ⟨f, rfl⟩ : ∃ f, fuel = f + 1 := ⟨fuel - 1, by simp at hf; omega⟩
    have hfs : (escapeStr cs).length < f := by
      simp only [List.length_append] at hf
      omega
    rw [List.append_assoc]
    have hv := char_valid c
    by_cases h1 : c = '"'
    · subst h1
      rw [show escapeChar '"' = ['\\', '"'] from rfl]
      show parseStringBody (f + 1) ('\\' :: '"' :: (escapeStr cs ++ '"' :: rest)) =
        some ('"' :: cs, rest)
      rw [show parseStringBody (f + 1) ('\\' :: '"' :: (escapeStr cs ++ '"' :: rest)) =
        (match parseStringBody f (escapeStr cs ++ '"' :: rest) with
          | none => none
          | some (s, r) => some ('"' :: s, r)) from rfl, ih f rest hfs]
    · by_cases h2 : c = '\\'
      · subst h2
        rw [show escapeChar '\\' = ['\\', '\\'] from rfl]
        show parseStringBody (f + 1) ('\\' :: '\\' :: (escapeStr cs ++ '"' :: rest)) =
          some ('\\' :: cs, rest)
        rw [show parseStringBody (f + 1) ('\\' :: '\\' :: (escapeStr cs ++ '"' :: rest)) =
          (match parseStringBody f (escapeStr cs ++ '"' :: rest) with
            | none => none
            | some (s, r) => some ('\\' :: s, r)) from rfl, ih f rest hfs]
      · by_cases h3 : c = '\n'
        · subst h3
          rw [show escapeChar '\n' = ['\\', 'n'] from rfl]
          show parseStringBody (f + 1) ('\\' :: 'n' :: (escapeStr cs ++ '"' :: rest)) =
            some ('\n' :: cs, rest)
          rw [show parseStringBody (f + 1) ('\\' :: 'n' :: (escapeStr cs ++ '"' :: rest)) =
            (match parseStringBody f (escapeStr cs ++ '"' :: rest) with
              | none => none
              | some (s, r) => some ('\n' :: s, r)) from rfl, ih f rest hfs]
        · by_cases h4 : c = '\t'
          · subst h4
            rw [show escapeChar '\t' = ['\\', 't'] from rfl]
            show parseStringBody (f + 1) ('\\' :: 't' :: (escapeStr cs ++ '"' :: rest)) =
              some ('\t' :: cs, rest)
            rw [show parseStringBody (f + 1) ('\\' :: 't' :: (escapeStr cs ++ '"' :: rest)) =
              (match parseStringBody f (escapeStr cs ++ '"' :: rest) with
                | none => none
                | some (s, r) => some ('\t' :: s, r)) from rfl, ih f rest hfs]
          · by_cases h5 : c = '\r'
            · subst h5
              rw [show escapeChar '\r' = ['\\', 'r'] from rfl]
              show parseStringBody (f + 1) ('\\' :: 'r' :: (escapeStr cs ++ '"' :: rest)) =
                some ('\r' :: cs, rest)
              rw [show parseStringBody (f + 1) ('\\' :: 'r' :: (escapeStr cs ++ '"' :: rest)) =
                (match parseStringBody f (escapeStr cs ++ '"' :: rest) with
                  | none => none
                  | some (s, r) => some ('\r' :: s, r)) from rfl, ih f rest hfs]
            · by_cases h6 : c = Char.ofNat 8
              · subst h6
                rw [show escapeChar (Char.ofNat 8) = ['\\', 'b'] from rfl]
                show parseStringBody (f + 1) ('\\' :: 'b' :: (escapeStr cs ++ '"' :: rest)) =
                  some (Char.ofNat 8 :: cs, rest)
                rw [show parseStringBody (f + 1) ('\\' :: 'b' :: (escapeStr cs ++ '"' :: rest)) =
                  (match parseStringBody f (escapeStr cs ++ '"' :: rest) with
                    | none => none
                    | some (s, r) => some (Char.ofNat 8 :: s, r)) from rfl, ih f rest hfs]
              · by_cases h7 : c = Char.ofNat 12
                · subst h7
                  rw [show escapeChar (Char.ofNat 12) = ['\\', 'f'] from rfl]
                  show parseStringBody (f + 1) ('\\' :: 'f' :: (escapeStr cs ++ '"' :: rest)) =
                    some (Char.ofNat 12 :: cs, rest)
                  rw [show parseStringBody (f + 1)
                      ('\\' :: 'f' :: (escapeStr cs ++ '"' :: rest)) =
                    (match parseStringBody f (escapeStr cs ++ '"' :: rest) with
                      | none => none
                      | some (s, r) => some (Char.ofNat 12 :: s, r)) from rfl, ih f rest hfs]
                · by_cases h8 : c.toNat < 0x20
                  · have hec : escapeChar c = ['\\', 'u', '0', '0', hexDigit (c.toNat / 16),
                        hexDigit (c.toNat % 16)] := by
                      unfold escapeChar
                      rw [if_neg h1, if_neg h2, if_neg h3, if_neg h4, if_neg h5, if_neg h6,
                        if_neg h7, if_pos h8]
                    rw [hec]
                    show parseStringBody (f + 1) ('\\' :: 'u' :: '0' :: '0' ::
                        hexDigit (c.toNat / 16) :: hexDigit (c.toNat % 16) ::
                        (escapeStr cs ++ '"' :: rest)) = some (c :: cs, rest)
                    rw [show parseStringBody (f + 1) ('\\' :: 'u' :: '0' :: '0' ::
                        hexDigit (c.toNat / 16) :: hexDigit (c.toNat % 16) ::
                        (escapeStr cs ++ '"' :: rest)) =
                      (match parseEscape ('u' :: '0' :: '0' :: hexDigit (c.toNat / 16) ::
                          hexDigit (c.toNat % 16) :: (escapeStr cs ++ '"' :: rest)) with
                        | none => none
                        | some (c2, rest2) =>
                          match parseStringBody f rest2 with
                          | none => none
                          | some (s, r) => some (c2 :: s, r)) from rfl,
                      parseEscape_u00 c.toNat h8]
                    show (match parseStringBody f (escapeStr cs ++ '"' :: rest) with
                      | none => none
                      | some (s, r) => some (Char.ofNat c.toNat :: s, r)) = some (c :: cs, rest)
                    rw [ih f rest hfs, Char.ofNat_toNat]
                  · have hec : escapeChar c = [c] := by
                      unfold escapeChar
                      rw [if_neg h1, if_neg h2, if_neg h3, if_neg h4, if_neg h5, if_neg h6,
                        if_neg h7, if_neg h8]
                    rw [hec]
                    show parseStringBody (f + 1) (c :: (escapeStr cs ++ '"' :: rest)) =
                      some (c :: cs, rest)
                    rw [show parseStringBody (f + 1) (c :: (escapeStr cs ++ '"' :: rest)) =
                      (if c = '"' then some ([], escapeStr cs ++ '"' :: rest)
                      else if c = '\\' then
                        match parseEscape (escapeStr cs ++ '"' :: rest) with
                        | none => none
                        | some (c2, rest2) =>
                          match parseStringBody f rest2 with
                          | none => none
                          | some (s, r) => some (c2 :: s, r)
                      else if c.toNat < 0x20 then none
                      else
                        match parseStringBody f (escapeStr cs ++ '"' :: rest) with
                        | none => none
                        | some (s, r) => some (c :: s, r)) from rfl,
                      if_neg h1, if_neg h2, if_neg (by omega : ¬ c.toNat < 0x20),
                      ih f rest hfs]

/-- String literals round-trip. -/
theorem parseString_dumpString (s : Str) (rest : Str) :
    parseString (escapeStr s ++ '"' :: rest) = some (s, rest) :=
  parseStringBody_escapeStr s _ rest (by simp; omega)

/-- Characters that terminate a number literal and do not begin another
token of a larger number. -/
def NumBoundary (rest : Str) : Prop :=
  match rest with
  | [] => True
  | c :: _ => ¬('0' ≤ c ∧ c ≤ '9') ∧ c ≠ '-' ∧ c ≠ '.' ∧ c ≠ 'e' ∧ c ≠ 'E'

theorem digitChar_facts : ∀ n, n < 10 →
    '0' ≤ digitChar n ∧ digitChar n ≤ '9' ∧ (digitChar n).toNat - 48 = n ∧
      (n ≠ 0 → digitChar n ≠ '0') ∧ digitChar n ≠ '-' := by decide

theorem digitsVal_append_one (ds : Str) (d : Char) :
    digitsVal (ds ++ [d]) = digitsVal ds * 10 + (d.toNat - 48) := by
  simp [digitsVal, List.foldl_append]

theorem natDigitsAux_spec : ∀ fuel n, n < fuel →
    natDigitsAux fuel n ≠ [] ∧
    (∀ c ∈ natDigitsAux fuel n, '0' ≤ c ∧ c ≤ '9') ∧
    digitsVal (natDigitsAux fuel n) = n ∧
    (n ≠ 0 → (natDigitsAux fuel n).head? ≠ some '0') := by
  intro fuel
  induction fuel with
  | zero => intro n hn; omega
  | succ f ih =>
    intro n hn
    by_cases h10 : n < 10
    · rw [show natDigitsAux (f + 1) n = [digitChar n] from by simp [natDigitsAux, h10]]
      obtain ⟨hd1, hd2, hd3, hd4, _⟩ := digitChar_facts n h10
      refine ⟨by simp, ?_, ?_, ?_⟩
      · intro c hc
        simp only [List.mem_singleton] at hc
        subst hc
        exact ⟨hd1, hd2⟩
      · simp [digitsVal, hd3]
      · intro hne
        simp only [List.head?_cons, Ne, Option.some.injEq]
        exact hd4 hne
    · rw [show natDigitsAux (f + 1) n = natDigitsAux f (n / 10) ++ [digitChar (n % 10)] from
        by simp [natDigitsAux, h10]]
      have hrec : n / 10 < f := by omega
      obtain ⟨hne, hdig, hval, hhead⟩ := ih (n / 10) hrec
      obtain ⟨hd1, hd2, hd3, _, _⟩ := digitChar_facts (n % 10) (by omega)
      refine ⟨by simp, ?_, ?_, ?_⟩
      · intro c hc
        simp only [List.mem_append, List.mem_singleton] at hc
        rcases hc with hc | hc
        · exact hdig c hc
        · subst hc
          exact ⟨hd1, hd2⟩
      · rw [digitsVal_append_one, hval, hd3]
        omega
      · intro _
        cases hne2 : natDigitsAux f (n / 10) with
        | nil => exact absurd hne2 hne
        | cons x xs =>
          rw [hne2] at hhead
          simp only [List.cons_append, List.head?_cons]
          exact hhead (by omega)

theorem natDigits_spec (n : Nat) :
    natDigits n ≠ [] ∧
    (∀ c ∈ natDigits n, '0' ≤ c ∧ c ≤ '9') ∧
    digitsVal (natDigits n) = n ∧
    (n ≠ 0 → (natDigits n).head? ≠ some '0') :=
  natDigitsAux_spec (n + 1) n (by omega)

theorem takeDigits_append (ds rest : Str) (hds : ∀ c ∈ ds, '0' ≤ c ∧ c ≤ '9')
    (hrest : match rest with | [] => True | c :: _ => ¬('0' ≤ c ∧ c ≤ '9')) :
    takeDigits (ds ++ rest) = (ds, rest) := by
  induction ds with
  | nil =>
    cases rest with
    | nil => rfl
    | cons c t =>
      simp only [List.nil_append, takeDigits, if_neg hrest]
  | cons d t ih =>
    have hd := hds d (by simp)
    simp only [List.cons_append, takeDigits, if_pos hd, List.append_eq]
    rw [ih (fun c hc => hds c (by simp [hc]))]

theorem numBoundaryOk_of_NumBoundary (rest : Str) (hb : NumBoundary rest) :
    numBoundaryOk rest = true := by
  cases rest with
  | nil => rfl
  | cons c t =>
    obtain ⟨_, _, h1, h2, h3⟩ := hb
    simp [numBoundaryOk, h1, h2, h3]

theorem takeDigits_boundary (ds rest : Str) (hds : ∀ c ∈ ds, '0' ≤ c ∧ c ≤ '9')
    (hb : NumBoundary rest) : takeDigits (ds ++ rest) = (ds, rest) := by
  apply takeDigits_append ds rest hds
  cases rest with
  | nil => trivial
  | cons c t => exact hb.1

/-- Integer literals round-trip. -/
theorem parseNumber_dumpInt (i : Int) (rest : Str) (hb : NumBoundary rest) :
    parseNumber (dumpInt i ++ rest) = some (i, rest) := by
  cases i with
  | ofNat n =>
    obtain ⟨hne, hdig, hval, hhead⟩ := natDigits_spec n
    show parseNumber (natDigits n ++ rest) = some (Int.ofNat n, rest)
    cases hx : natDigits n with
    | nil => exact absurd hx hne
    | cons x xs =>
      have hxd := hdig x (by rw [hx]; simp)
      have hxm : x ≠ '-' := by
        intro h
        subst h
        revert hxd
        decide
      have hneg : (((x :: xs) ++ rest).head? == some '-') = false := by
        simp only [List.cons_append, List.head?_cons, beq_eq_false_iff_ne, Ne,
          Option.some.injEq]
        exact hxm
      unfold parseNumber
      rw [hx] at hval hhead
      simp only [hneg, Bool.false_eq_true, if_false, cond_false]
      rw [show takeDigits ((x :: xs) ++ rest) = (x :: xs, rest) from
        takeDigits_boundary _ rest (by rw [← hx]; exact hdig) hb]
      simp only [if_neg (by simp : ¬(x :: xs = [])),
        numBoundaryOk_of_NumBoundary rest hb, if_true]
      by_cases hz : n = 0
      · subst hz
        have : natDigits 0 = ['0'] := rfl
        rw [this] at hx
        injection hx with hx1 hx2
        subst hx1
        subst hx2
        simp [hval, digitsVal]
      · have hh := hhead hz
        rw [if_pos]
        · rw [hval]
          rfl
        · left
          simpa using hh
  | negSucc m =>
    obtain ⟨hne, hdig, hval, hhead⟩ := natDigits_spec (m + 1)
    show parseNumber (('-' :: natDigits (m + 1)) ++ rest) = some (Int.negSucc m, rest)
    unfold parseNumber
    simp only [List.cons_append, List.head?_cons, beq_self_eq_true, if_true, List.tail_cons]
    rw [takeDigits_boundary _ rest hdig hb]
    cases hx : natDigits (m + 1) with
    | nil => exact absurd hx hne
    | cons x xs =>
      rw [hx] at hval hhead
      simp only [if_neg (by simp : ¬(x :: xs = [])),
        numBoundaryOk_of_NumBoundary rest hb, if_true]
      have hh := hhead (by omega)
      rw [if_pos]
      · rw [hval, show -(((m + 1 : Nat) : Int)) = Int.negSucc m from by rw [Int.negSucc_eq]; push_cast; ring]
      · left
        simpa using hh

/-- Valid item/key separators: what `json.dumps` can be configured with
among the two configurations the repository uses. -/
def SepOk (isep ksep : Str) : Prop :=
  (∃ w, isep = ',' :: w ∧ WsOnly w) ∧ (∃ w, ksep = ':' :: w ∧ WsOnly w)

theorem digit_or_minus_facts (c : Char) (h : ('0' ≤ c ∧ c ≤ '9') ∨ c = '-') :
    isWs c = false ∧ c ≠ ']' ∧ c ≠ '"' ∧ c ≠ '\x7b' ∧ c ≠ '[' ∧
      c ≠ 't' ∧ c ≠ 'f' ∧ c ≠ 'n' := by
  rcases h with h | h
  · have w1 : c ≠ ' ' := by intro he; subst he; revert h; decide
    have w2 : c ≠ '\t' := by intro he; subst he; revert h; decide
    have w3 : c ≠ '\n' := by intro he; subst he; revert h; decide
    have w4 : c ≠ '\r' := by intro he; subst he; revert h; decide
    refine ⟨by simp [isWs, w1, w2, w3, w4], ?_, ?_, ?_, ?_, ?_, ?_, ?_⟩
    all_goals (intro he; subst he; revert h; decide)
  · subst h
    decide

theorem dumpInt_shape (i : Int) :
    ∃ c t, dumpInt i = c :: t ∧ (('0' ≤ c ∧ c ≤ '9') ∨ c = '-') := by
  cases i with
  | ofNat n =>
    obtain ⟨hne, hdig, _, _⟩ := natDigits_spec n
    cases hx : natDigits n with
    | nil => exact absurd hx hne
    | cons x xs =>
      exact ⟨x, xs, hx, Or.inl (hdig x (by rw [hx]; simp))⟩
  | negSucc m => exact ⟨'-', natDigits (m + 1), rfl, Or.inr rfl⟩

/-- Head character of a serialized value: never whitespace and never a
closing bracket. -/
theorem dumps_head (isep ksep : Str) (j : Json) :
    ∃ c t, dumpsWith isep ksep j = c :: t ∧ isWs c = false ∧ c ≠ ']' ∧ c ≠ '\x7d' := by
  cases j with
  | str s => exact ⟨'"', _, rfl, by decide, by decide, by decide⟩
  | num n =>
    obtain ⟨c, t, hct, hc⟩ := dumpInt_shape n
    obtain ⟨h1, h2, _⟩ := digit_or_minus_facts c hc
    have hbr : c ≠ '\x7d' := by
      rcases hc with hd | hm
      · intro he; subst he; revert hd; decide
      · subst hm; decide
    exact ⟨c, t, hct, h1, h2, hbr⟩
  | bool b =>
    cases b
    case false => exact ⟨'f', _, rfl, by decide, by decide, by decide⟩
    case true => exact ⟨'t', _, rfl, by decide, by decide, by decide⟩
  | null => exact ⟨'n', _, rfl, by decide, by decide, by decide⟩
  | arr xs => exact ⟨'[', _, rfl, by decide, by decide, by decide⟩
  | obj kvs => exact ⟨'\x7b', _, rfl, by decide, by decide, by decide⟩

/-- Serialized values are nonempty. -/
theorem dumps_len_pos (isep ksep : Str) (j : Json) :
    1 ≤ (dumpsWith isep ksep j).length := by
  obtain ⟨c, t, hct, _⟩ := dumps_head isep ksep j
  rw [hct]
  simp

theorem dumpString_len (k : Str) : 2 ≤ (dumpString k).length := by
  simp only [dumpString, List.length_cons, List.length_append, List.length_singleton]
  omega

/-- Inserting a fresh key appends. -/
theorem objInsert_fresh (k : Str) (v : Json) (acc : List (Str × Json))
    (h : ∀ p ∈ acc, p.1 ≠ k) : objInsert k v acc = acc ++ [(k, v)] := by
  induction acc with
  | nil => rfl
  | cons p rest ih =>
    obtain ⟨k2, v2⟩ := p
    simp only [objInsert, if_neg (h (k2, v2) (by simp))]
    rw [ih (fun q hq => h q (by simp [hq]))]
    rfl

/-- Folding distinct, fresh members into an accumulator appends them. -/
theorem foldl_objInsert_append (kvs : List (Str × Json)) :
    ∀ acc, keysDistinct kvs = true →
    (∀ p ∈ kvs, ∀ q ∈ acc, q.1 ≠ p.1) →
    kvs.foldl (fun a (p : Str × Json) => objInsert p.1 p.2 a) acc = acc ++ kvs := by
  induction kvs with
  | nil => intro acc _ _; simp
  | cons p rest ih =>
    intro acc hdist hfresh
    obtain ⟨k, v⟩ := p
    simp only [keysDistinct, Bool.and_eq_true, List.all_eq_true] at hdist
    simp only [List.foldl_cons]
    rw [show objInsert (k, v).1 (k, v).2 acc = acc ++ [(k, v)] from
      objInsert_fresh k v acc (hfresh (k, v) (by simp))]
    have hfresh2 : ∀ p2 ∈ rest, ∀ q ∈ acc ++ [(k, v)], q.1 ≠ p2.1 := by
      intro p2 hp2 q hq
      simp only [List.mem_append, List.mem_singleton] at hq
      rcases hq with hq | hq
      · exact hfresh p2 (by simp [hp2]) q hq
      · subst hq
        have := hdist.1 p2 hp2
        simp only [decide_eq_true_eq] at this
        exact Ne.symm this
    rw [ih (acc ++ [(k, v)]) hdist.2 hfresh2, List.append_assoc]
    rfl

/-- Folding the parsed members of a well-formed object from the empty
dict yields exactly those members. -/
theorem foldl_objInsert_nil (kvs : List (Str × Json)) (hdist : keysDistinct kvs = true) :
    kvs.foldl (fun a (p : Str × Json) => objInsert p.1 p.2 a) [] = kvs := by
  rw [foldl_objInsert_append kvs [] hdist (by simp)]
  simp

/-- Leading whitespace does not affect value parsing. -/
theorem parseF_val_ws (fuel : Nat) (w s : Str) (hw : WsOnly w) :
    parseF fuel (.val (w ++ s)) = parseF fuel (.val s) := by
  cases fuel with
  | zero => rfl
  | succ f =>
    simp only [parseF]
    rw [skipWs_append_ws w s hw]

/-- Leading whitespace does not affect member parsing. -/
theorem parseF_members_ws (fuel : Nat) (w s : Str) (acc : List (Str × Json)) (hw : WsOnly w) :
    parseF fuel (.members (w ++ s) acc) = parseF fuel (.members s acc) := by
  cases fuel with
  | zero => rfl
  | succ f =>
    simp only [parseF]
    rw [skipWs_append_ws w s hw]

theorem parseF_val_quote (f : Nat) (T : Str) :
    parseF (f + 1) (.val ('"' :: T)) =
      (parseString T).map (fun p => (Json.str p.1, p.2)) := rfl

theorem parseF_val_true (f : Nat) (T : Str) :
    parseF (f + 1) (.val ('t' :: 'r' :: 'u' :: 'e' :: T)) = some (Json.bool true, T) := rfl

theorem parseF_val_false (f : Nat) (T : Str) :
    parseF (f + 1) (.val ('f' :: 'a' :: 'l' :: 's' :: 'e' :: T)) =
      some (Json.bool false, T) := rfl

theorem parseF_val_null (f : Nat) (T : Str) :
    parseF (f + 1) (.val ('n' :: 'u' :: 'l' :: 'l' :: T)) = some (Json.null, T) := rfl

theorem parseF_val_lbrace (f : Nat) (T : Str) :
    parseF (f + 1) (.val ('\x7b' :: T)) =
      (match skipWs T with
        | '\x7d' :: r => some (Json.obj [], r)
        | _ => parseF f (.members T [])) := rfl

theorem parseF_val_lbrack (f : Nat) (T : Str) :
    parseF (f + 1) (.val ('[' :: T)) =
      (match skipWs T with
        | ']' :: r => some (Json.arr [], r)
        | _ => parseF f (.elems T [])) := rfl

theorem parseF_val_number (f : Nat) (c : Char) (T : Str) (hw : isWs c = false)
    (h1 : c ≠ '"') (h2 : c ≠ '\x7b') (h3 : c ≠ '[') (h4 : c ≠ 't') (h5 : c ≠ 'f')
    (h6 : c ≠ 'n') :
    parseF (f + 1) (.val (c :: T)) =
      (parseNumber (c :: T)).map (fun p => (Json.num p.1, p.2)) := by
  simp only [parseF, skipWs_not_ws c T hw]
  rw [if_neg h1, if_neg h2, if_neg h3, if_neg h4, if_neg h5, if_neg h6]

theorem parseF_members_quote (f : Nat) (T : Str) (acc : List (Str × Json)) :
    parseF (f + 1) (.members ('"' :: T) acc) =
      (match parseString T with
        | none => none
        | some (k, r1) =>
          match skipWs r1 with
          | ':' :: r2 =>
            match parseF f (.val r2) with
            | none => none
            | some (v, r3) =>
              match skipWs r3 with
              | ',' :: r4 => parseF f (.members r4 (objInsert k v acc))
              | '\x7d' :: r4 => some (Json.obj (objInsert k v acc), r4)
              | _ => none
          | _ => none) := rfl

theorem parseF_elems_step (f : Nat) (s : Str) (acc : List Json) :
    parseF (f + 1) (.elems s acc) =
      (match parseF f (.val s) with
        | none => none
        | some (v, r1) =>
          match skipWs r1 with
          | ',' :: r2 => parseF f (.elems r2 (acc ++ [v]))
          | ']' :: r2 => some (Json.arr (acc ++ [v]), r2)
          | _ => none) := rfl

theorem elems_match_ne {α : Type} (c : Char) (T : Str) (R : Str → α) (E : α)
    (hc : c ≠ ']') :
    (match c :: T with
      | ']' :: r => R r
      | _ => E) = E := by
  split
  · next r heq =>
      rw [List.cons.injEq] at heq
      exact absurd heq.1 hc
  · rfl

theorem members_match_ne {α : Type} (c : Char) (T : Str) (R : Str → α) (E : α)
    (hc : c ≠ '\x7d') :
    (match c :: T with
      | '\x7d' :: r => R r
      | _ => E) = E := by
  split
  · next r heq =>
      rw [List.cons.injEq] at heq
      exact absurd heq.1 hc
  · rfl

theorem parseF_members_dumpString (f : Nat) (k : Str) (Y : Str) (acc : List (Str × Json)) :
    parseF (f + 1) (.members (dumpString k ++ Y) acc) =
      (match skipWs Y with
        | ':' :: r2 =>
          match parseF f (.val r2) with
          | none => none
          | some (v, r3) =>
            match skipWs r3 with
            | ',' :: r4 => parseF f (.members r4 (objInsert k v acc))
            | '\x7d' :: r4 => some (Json.obj (objInsert k v acc), r4)
            | _ => none
        | _ => none) := by
  rw [show dumpString k ++ Y = '"' :: ((escapeStr k ++ ['"']) ++ Y) from rfl,
    parseF_members_quote, List.append_assoc,
    show ['"'] ++ Y = '"' :: Y from rfl, parseString_dumpString]

/-- Parsing inverts serialization, stated mutually for values, object
members and array elements; induction on fuel, with the length of the
serialized text as the fuel bound. -/
theorem parseF_dumpsWith (isep ksep : Str) (hsep : SepOk isep ksep) : ∀ fuel,
    (∀ j rest, (dumpsWith isep ksep j).length < fuel → j.wf = true → NumBoundary rest →
      parseF fuel (.val (dumpsWith isep ksep j ++ rest)) = some (j, rest)) ∧
    (∀ kvs acc rest w, kvs ≠ [] → (dumpsObj isep ksep kvs).length + 1 < fuel →
      wfKvs kvs = true → WsOnly w →
      parseF fuel (.members (w ++ (dumpsObj isep ksep kvs ++ '\x7d' :: rest)) acc) =
        some (Json.obj (kvs.foldl (fun a (p : Str × Json) => objInsert p.1 p.2 a) acc),
          rest)) ∧
    (∀ xs acc rest w, xs ≠ [] → (dumpsArr isep ksep xs).length + 1 < fuel →
      wfList xs = true → WsOnly w →
      parseF fuel (.elems (w ++ (dumpsArr isep ksep xs ++ ']' :: rest)) acc) =
        some (Json.arr (acc ++ xs), rest)) := by
  obtain ⟨⟨wi, hisep, hwi⟩, ⟨wk, hksep, hwk⟩⟩ := hsep
  intro fuel
  induction fuel with
  | zero =>
    exact ⟨fun j rest hlen _ _ => absurd hlen (by omega),
      fun kvs acc rest w _ hlen _ _ => absurd hlen (by omega),
      fun xs acc rest w _ hlen _ _ => absurd hlen (by omega)⟩
  | succ f ih =>
    obtain ⟨ihA, ihB, ihC⟩ := ih
    refine ⟨?_, ?_, ?_⟩
    -- values
    · intro j rest hlen hwf hnb
      cases j with
      | str s =>
        rw [show dumpsWith isep ksep (Json.str s) ++ rest =
            '"' :: ((escapeStr s ++ ['"']) ++ rest) from rfl,
          parseF_val_quote, List.append_assoc, show ['"'] ++ rest = '"' :: rest from rfl,
          parseString_dumpString]
        rfl
      | num n =>
        obtain ⟨c, t, hct, hc⟩ := dumpInt_shape n
        obtain ⟨hwsc, _, hq, hbr, hlb, ht, hf2, hn2⟩ := digit_or_minus_facts c hc
        rw [show dumpsWith isep ksep (Json.num n) = dumpInt n from rfl, hct,
          List.cons_append, parseF_val_number f c _ hwsc hq hbr hlb ht hf2 hn2,
          ← List.cons_append, ← hct, parseNumber_dumpInt n rest hnb]
        rfl
      | bool b =>
        cases b with
        | true =>
          show parseF (f + 1) (.val ('t' :: 'r' :: 'u' :: 'e' :: rest)) =
            some (Json.bool true, rest)
          rw [parseF_val_true]
        | false =>
          show parseF (f + 1) (.val ('f' :: 'a' :: 'l' :: 's' :: 'e' :: rest)) =
            some (Json.bool false, rest)
          rw [parseF_val_false]
      | null =>
        show parseF (f + 1) (.val ('n' :: 'u' :: 'l' :: 'l' :: rest)) = some (Json.null, rest)
        rw [parseF_val_null]
      | arr xs =>
        cases xs with
        | nil =>
          show parseF (f + 1) (.val ('[' :: ']' :: rest)) = some (Json.arr [], rest)
          rfl
        | cons x txs =>
          rw [show dumpsWith isep ksep (Json.arr (x :: txs)) =
            '[' :: (dumpsArr isep ksep (x :: txs) ++ [']']) from rfl] at hlen ⊢
          rw [List.cons_append, parseF_val_lbrack, List.append_assoc,
            show [']'] ++ rest = ']' :: rest from rfl]
          have hxd : ∃ c t, dumpsArr isep ksep (x :: txs) = c :: t ∧
              isWs c = false ∧ c ≠ ']' := by
            obtain ⟨c, t, hct, hws, hrb, _⟩ := dumps_head isep ksep x
            cases txs with
            | nil => exact ⟨c, t, hct, hws, hrb⟩
            | cons y tys =>
              refine ⟨c, t ++ (isep ++ dumpsArr isep ksep (y :: tys)), ?_, hws, hrb⟩
              rw [show dumpsArr isep ksep (x :: y :: tys) =
                dumpsWith isep ksep x ++ isep ++ dumpsArr isep ksep (y :: tys) from rfl, hct]
              simp
          obtain ⟨c, t, hct, hws, hrb⟩ := hxd
          rw [hct, List.cons_append, skipWs_not_ws c _ hws]
          split
          · next r heq =>
              rw [List.cons.injEq] at heq
              exact absurd heq.1 hrb
          rw [← List.cons_append, ← hct]
          have hres := ihC (x :: txs) [] rest [] (by simp)
            (by simp only [List.length_cons, List.length_append,
              List.length_singleton] at hlen; omega)
            (by
              have : Json.wf (Json.arr (x :: txs)) = wfList (x :: txs) := rfl
              rw [← this]; exact hwf)
            (by intro z hz; simp at hz)
          rw [show ([] : Str) ++ (dumpsArr isep ksep (x :: txs) ++ ']' :: rest) =
            dumpsArr isep ksep (x :: txs) ++ ']' :: rest from rfl] at hres
          rw [hres]
          rfl
      | obj kvs =>
        cases kvs with
        | nil =>
          show parseF (f + 1) (.val ('\x7b' :: '\x7d' :: rest)) = some (Json.obj [], rest)
          rfl
        | cons kv tkvs =>
          obtain ⟨k, v⟩ := kv
          rw [show dumpsWith isep ksep (Json.obj ((k, v) :: tkvs)) =
            '\x7b' :: (dumpsObj isep ksep ((k, v) :: tkvs) ++ ['\x7d']) from rfl] at hlen ⊢
          rw [List.cons_append, parseF_val_lbrace, List.append_assoc,
            show ['\x7d'] ++ rest = '\x7d' :: rest from rfl]
          have hxd : ∃ t, dumpsObj isep ksep ((k, v) :: tkvs) =
              '"' :: t := by
            cases tkvs with
            | nil => exact ⟨_, rfl⟩
            | cons q tq => exact ⟨_, rfl⟩
          obtain ⟨t, hct⟩ := hxd
          rw [hct, List.cons_append, skipWs_not_ws '"' _ (by decide)]
          split
          · next r heq =>
              rw [List.cons.injEq] at heq
              exact absurd heq.1 (by decide)
          rw [← List.cons_append, ← hct]
          have hwf2 : (keysDistinct ((k, v) :: tkvs) && wfKvs ((k, v) :: tkvs)) = true := by
            have : Json.wf (Json.obj ((k, v) :: tkvs)) =
              (keysDistinct ((k, v) :: tkvs) && wfKvs ((k, v) :: tkvs)) := rfl
            rw [← this]; exact hwf
          simp only [Bool.and_eq_true] at hwf2
          have hres := ihB ((k, v) :: tkvs) [] rest [] (by simp)
            (by simp only [List.length_cons, List.length_append,
              List.length_singleton] at hlen; omega)
            hwf2.2
            (by intro z hz; simp at hz)
          rw [show ([] : Str) ++ (dumpsObj isep ksep ((k, v) :: tkvs) ++ '\x7d' :: rest) =
            dumpsObj isep ksep ((k, v) :: tkvs) ++ '\x7d' :: rest from rfl] at hres
          rw [hres, foldl_objInsert_nil _ hwf2.1]
    -- object members
    · intro kvs acc rest w hne hlen hwfk hw
      cases kvs with
      | nil => exact absurd rfl hne
      | cons kv tkvs =>
        obtain ⟨k, v⟩ := kv
        rw [parseF_members_ws (f + 1) w _ acc hw]
        simp only [wfKvs, Bool.and_eq_true] at hwfk
        cases tkvs with
        | nil =>
          rw [show dumpsObj isep ksep [(k, v)] ++ '\x7d' :: rest =
            dumpString k ++ ((ksep ++ dumpsWith isep ksep v) ++ '\x7d' :: rest) from by
              simp [dumpsObj, List.append_assoc]]
          rw [parseF_members_dumpString]
          rw [show (ksep ++ dumpsWith isep ksep v) ++ '\x7d' :: rest =
            ':' :: (wk ++ (dumpsWith isep ksep v ++ '\x7d' :: rest)) from by
              rw [hksep]; simp, skipWs_not_ws ':' _ (by decide)]
          show (match parseF f (.val (wk ++ (dumpsWith isep ksep v ++ '\x7d' :: rest))) with
            | none => none
            | some (v2, r3) =>
              match skipWs r3 with
              | ',' :: r4 => parseF f (.members r4 (objInsert k v2 acc))
              | '\x7d' :: r4 => some (Json.obj (objInsert k v2 acc), r4)
              | _ => none) = _
          rw [parseF_val_ws f wk _ hwk]
          have hlv : (dumpsWith isep ksep v).length < f := by
            have h2 := dumpString_len k
            have h3 : 1 ≤ ksep.length := by rw [hksep]; simp
            simp only [dumpsObj, List.length_append] at hlen
            omega
          rw [ihA v ('\x7d' :: rest) hlv hwfk.1 (by exact ⟨by decide, by decide, by decide,
            by decide, by decide⟩)]
          show (match skipWs ('\x7d' :: rest) with
            | ',' :: r4 => parseF f (.members r4 (objInsert k v acc))
            | '\x7d' :: r4 => some (Json.obj (objInsert k v acc), r4)
            | _ => none) = _
          rw [skipWs_not_ws '\x7d' _ (by decide)]
          rfl
        | cons q tq =>
          rw [show dumpsObj isep ksep ((k, v) :: q :: tq) ++ '\x7d' :: rest =
            dumpString k ++ ((ksep ++ dumpsWith isep ksep v) ++
              (isep ++ (dumpsObj isep ksep (q :: tq) ++ '\x7d' :: rest))) from by
              rw [show dumpsObj isep ksep ((k, v) :: q :: tq) =
                dumpString k ++ ksep ++ dumpsWith isep ksep v ++ isep ++
                  dumpsObj isep ksep (q :: tq) from rfl]
              simp [List.append_assoc]]
          rw [parseF_members_dumpString]
          rw [show (ksep ++ dumpsWith isep ksep v) ++
              (isep ++ (dumpsObj isep ksep (q :: tq) ++ '\x7d' :: rest)) =
            ':' :: (wk ++ (dumpsWith isep ksep v ++
              (isep ++ (dumpsObj isep ksep (q :: tq) ++ '\x7d' :: rest)))) from by
              rw [hksep]; simp, skipWs_not_ws ':' _ (by decide)]
          show (match parseF f (.val (wk ++ (dumpsWith isep ksep v ++
              (isep ++ (dumpsObj isep ksep (q :: tq) ++ '\x7d' :: rest))))) with
            | none => none
            | some (v2, r3) =>
              match skipWs r3 with
              | ',' :: r4 => parseF f (.members r4 (objInsert k v2 acc))
              | '\x7d' :: r4 => some (Json.obj (objInsert k v2 acc), r4)
              | _ => none) = _
          rw [parseF_val_ws f wk _ hwk]
          have h2 := dumpString_len k
          have h3 : 1 ≤ ksep.length := by rw [hksep]; simp
          have h4 : 1 ≤ isep.length := by rw [hisep]; simp
          have h5 := dumps_len_pos isep ksep v
          have hlv : (dumpsWith isep ksep v).length < f := by
            rw [show dumpsObj isep ksep ((k, v) :: q :: tq) =
              dumpString k ++ ksep ++ dumpsWith isep ksep v ++ isep ++
                dumpsObj isep ksep (q :: tq) from rfl] at hlen
            simp only [List.length_append] at hlen
            omega
          rw [ihA v (isep ++ (dumpsObj isep ksep (q :: tq) ++ '\x7d' :: rest)) hlv hwfk.1
            (by rw [hisep]; exact ⟨by decide, by decide, by decide, by decide, by decide⟩)]
          show (match skipWs (isep ++ (dumpsObj isep ksep (q :: tq) ++ '\x7d' :: rest)) with
            | ',' :: r4 => parseF f (.members r4 (objInsert k v acc))
            | '\x7d' :: r4 => some (Json.obj (objInsert k v acc), r4)
            | _ => none) = _
          rw [show isep ++ (dumpsObj isep ksep (q :: tq) ++ '\x7d' :: rest) =
            ',' :: (wi ++ (dumpsObj isep ksep (q :: tq) ++ '\x7d' :: rest)) from by
              rw [hisep]; simp, skipWs_not_ws ',' _ (by decide)]
          show parseF f (.members (wi ++ (dumpsObj isep ksep (q :: tq) ++ '\x7d' :: rest))
            (objInsert k v acc)) = _
          have hlq : (dumpsObj isep ksep (q :: tq)).length + 1 < f := by
            rw [show dumpsObj isep ksep ((k, v) :: q :: tq) =
              dumpString k ++ ksep ++ dumpsWith isep ksep v ++ isep ++
                dumpsObj isep ksep (q :: tq) from rfl] at hlen
            simp only [List.length_append] at hlen
            omega
          rw [ihB (q :: tq) (objInsert k v acc) rest wi (by simp) hlq hwfk.2 hwi]
          rfl
    -- array elements
    · intro xs acc rest w hne hlen hwfl hw
      cases xs with
      | nil => exact absurd rfl hne
      | cons x txs =>
        simp only [wfList, Bool.and_eq_true] at hwfl
        show (match parseF f (.val (w ++ (dumpsArr isep ksep (x :: txs) ++ ']' :: rest))) with
          | none => none
          | some (v, r1) =>
            match skipWs r1 with
            | ',' :: r2 => parseF f (.elems r2 (acc ++ [v]))
            | ']' :: r2 => some (Json.arr (acc ++ [v]), r2)
            | _ => none) = _
        rw [parseF_val_ws f w _ hw]
        cases txs with
        | nil =>
          rw [show dumpsArr isep ksep [x] ++ ']' :: rest =
            dumpsWith isep ksep x ++ ']' :: rest from rfl]
          have hlv : (dumpsWith isep ksep x).length < f := by
            simp only [dumpsArr] at hlen
            omega
          rw [ihA x (']' :: rest) hlv hwfl.1
            ⟨by decide, by decide, by decide, by decide, by decide⟩]
          show (match skipWs (']' :: rest) with
            | ',' :: r2 => parseF f (.elems r2 (acc ++ [x]))
            | ']' :: r2 => some (Json.arr (acc ++ [x]), r2)
            | _ => none) = _
          rw [skipWs_not_ws ']' _ (by decide)]
          rfl
        | cons y ty =>
          rw [show dumpsArr isep ksep (x :: y :: ty) ++ ']' :: rest =
            dumpsWith isep ksep x ++ (isep ++ (dumpsArr isep ksep (y :: ty) ++ ']' :: rest))
              from by
            rw [show dumpsArr isep ksep (x :: y :: ty) =
              dumpsWith isep ksep x ++ isep ++ dumpsArr isep ksep (y :: ty) from rfl]
            simp [List.append_assoc]]
          have h4 : 1 ≤ isep.length := by rw [hisep]; simp
          have h5 := dumps_len_pos isep ksep y
          have hlv : (dumpsWith isep ksep x).length < f := by
            rw [show dumpsArr isep ksep (x :: y :: ty) =
              dumpsWith isep ksep x ++ isep ++ dumpsArr isep ksep (y :: ty) from rfl] at hlen
            simp only [List.length_append] at hlen
            omega
          rw [ihA x (isep ++ (dumpsArr isep ksep (y :: ty) ++ ']' :: rest)) hlv hwfl.1
            (by rw [hisep]; exact ⟨by decide, by decide, by decide, by decide, by decide⟩)]
          show (match skipWs (isep ++ (dumpsArr isep ksep (y :: ty) ++ ']' :: rest)) with
            | ',' :: r2 => parseF f (.elems r2 (acc ++ [x]))
            | ']' :: r2 => some (Json.arr (acc ++ [x]), r2)
            | _ => none) = _
          rw [show isep ++ (dumpsArr isep ksep (y :: ty) ++ ']' :: rest) =
            ',' :: (wi ++ (dumpsArr isep ksep (y :: ty) ++ ']' :: rest)) from by
              rw [hisep]; simp, skipWs_not_ws ',' _ (by decide)]
          show parseF f (.elems (wi ++ (dumpsArr isep ksep (y :: ty) ++ ']' :: rest))
            (acc ++ [x])) = _
          have hlq : (dumpsArr isep ksep (y :: ty)).length + 1 < f := by
            rw [show dumpsArr isep ksep (x :: y :: ty) =
              dumpsWith isep ksep x ++ isep ++ dumpsArr isep ksep (y :: ty) from rfl] at hlen
            simp only [List.length_append] at hlen
            omega
          rw [ihC (y :: ty) (acc ++ [x]) rest wi (by simp) hlq hwfl.2 hwi]
          simp

/-- `json.loads` inverts `json.dumps` for any separator configuration in
use and any value a Python dict can hold. -/
theorem jsonLoads_dumpsWith (isep ksep : Str) (hsep : SepOk isep ksep) (j : Json)
    (hwf : j.wf = true) : jsonLoads (dumpsWith isep ksep j) = some j := by
  have h := (parseF_dumpsWith isep ksep hsep ((dumpsWith isep ksep j).length + 1)).1
    j [] (by omega) hwf trivial
  rw [List.append_nil] at h
  show (match parseF ((dumpsWith isep ksep j).length + 1)
      (.val (dumpsWith isep ksep j)) with
    | some (j2, rest) => if skipWs rest = [] then some j2 else none
    | none => none) = some j
  rw [h]
  rfl

theorem sepOk_default : SepOk (chars ", ") (chars ": ") :=
  ⟨⟨[' '], rfl, fun c hc => by rw [List.mem_singleton] at hc; subst hc; rfl⟩,
    ⟨[' '], rfl, fun c hc => by rw [List.mem_singleton] at hc; subst hc; rfl⟩⟩

theorem sepOk_compact : SepOk (chars ",") (chars ":") :=
  ⟨⟨[], rfl, by intro c hc; simp at hc⟩, ⟨[], rfl, by intro c hc; simp at hc⟩⟩

/-- Round-trip with the stdlib default separators. -/
theorem jsonLoads_dumps (j : Json) (hwf : j.wf = true) : jsonLoads (dumps j) = some j :=
  jsonLoads_dumpsWith _ _ sepOk_default j hwf

/-- Round-trip with PyJWT's compact separators. -/
theorem jsonLoads_dumpsCompact (j : Json) (hwf : j.wf = true) :
    jsonLoads (dumpsCompact j) = some j :=
  jsonLoads_dumpsWith _ _ sepOk_compact j hwf

/-! ### The parser only produces well-formed values -/

theorem all_fst_objInsert (k : Str) (v : Json) (t : List (Str × Json))
    (p : Str → Bool) (h : t.all (fun q => p q.1) = true) (hk : p k = true) :
    (objInsert k v t).all (fun q => p q.1) = true := by
  induction t with
  | nil => simp [objInsert, hk]
  | cons q tq ih =>
    obtain ⟨k1, v1⟩ := q
    simp only [List.all_cons, Bool.and_eq_true] at h
    by_cases he : k1 = k
    · simp [objInsert, he, h.1, h.2, hk]
    · simp only [objInsert, if_neg he, List.all_cons, Bool.and_eq_true]
      exact ⟨h.1, ih h.2⟩

/-- Dict insertion preserves the dict invariants. -/
theorem objInsert_wf (k : Str) (v : Json) (acc : List (Str × Json))
    (hd : keysDistinct acc = true) (hw : wfKvs acc = true) (hv : v.wf = true) :
    keysDistinct (objInsert k v acc) = true ∧ wfKvs (objInsert k v acc) = true := by
  induction acc with
  | nil => exact ⟨by simp [objInsert, keysDistinct], by simp [objInsert, wfKvs, hv]⟩
  | cons q t ih =>
    obtain ⟨k1, v1⟩ := q
    simp only [keysDistinct, Bool.and_eq_true] at hd
    simp only [wfKvs, Bool.and_eq_true] at hw
    by_cases he : k1 = k
    · refine ⟨?_, ?_⟩
      · simp only [objInsert, if_pos he, keysDistinct, Bool.and_eq_true]
        exact ⟨hd.1, hd.2⟩
      · simp only [objInsert, if_pos he, wfKvs, Bool.and_eq_true]
        exact ⟨hv, hw.2⟩
    · obtain ⟨ih1, ih2⟩ := ih hd.2 hw.2
      refine ⟨?_, ?_⟩
      · simp only [objInsert, if_neg he, keysDistinct, Bool.and_eq_true]
        refine ⟨?_, ih1⟩
        apply all_fst_objInsert k v t (fun s => decide (s ≠ k1))
        · exact hd.1
        · simp
          exact fun hc => he hc.symm
      · simp only [objInsert, if_neg he, wfKvs, Bool.and_eq_true]
        exact ⟨hw.1, ih2⟩

theorem wfList_append_one (l : List Json) (v : Json) (hl : wfList l = true)
    (hv : v.wf = true) : wfList (l ++ [v]) = true := by
  induction l with
  | nil => simp [wfList, hv]
  | cons a t iha =>
    simp only [wfList, Bool.and_eq_true, List.cons_append] at hl ⊢
    exact ⟨hl.1, iha hl.2⟩

/-- Everything the parser produces satisfies the Python-dict invariants. -/
theorem parseF_wf : ∀ fuel,
    (∀ s j rest, parseF fuel (.val s) = some (j, rest) → j.wf = true) ∧
    (∀ s acc j rest, keysDistinct acc = true → wfKvs acc = true →
      parseF fuel (.members s acc) = some (j, rest) → j.wf = true) ∧
    (∀ s acc j rest, wfList acc = true →
      parseF fuel (.elems s acc) = some (j, rest) → j.wf = true) := by
  intro fuel
  induction fuel with
  | zero =>
    refine ⟨fun s j rest hp => absurd hp (by simp [parseF]),
      fun s acc j rest _ _ hp => absurd hp (by simp [parseF]),
      fun s acc j rest _ hp => absurd hp (by simp [parseF])⟩
  | succ f ih =>
    obtain ⟨ihA, ihB, ihC⟩ := ih
    refine ⟨?_, ?_, ?_⟩
    · intro s j rest hp
      simp only [parseF] at hp
      split at hp
      · exact absurd hp (by simp)
      · split at hp
        · simp only [Option.map_eq_some'] at hp
          obtain ⟨a, _, ha⟩ := hp
          rw [Prod.mk.injEq] at ha
          rw [← ha.1]
          rfl
        · split at hp
          · split at hp
            · rw [Option.some.injEq, Prod.mk.injEq] at hp
              rw [← hp.1]
              rfl
            · exact ihB _ [] _ _ rfl rfl hp
          · split at hp
            · split at hp
              · rw [Option.some.injEq, Prod.mk.injEq] at hp
                rw [← hp.1]
                rfl
              · exact ihC _ [] _ _ rfl hp
            · split at hp
              · split at hp
                · rw [Option.some.injEq, Prod.mk.injEq] at hp
                  rw [← hp.1]
                  rfl
                · exact absurd hp (by simp)
              · split at hp
                · split at hp
                  · rw [Option.some.injEq, Prod.mk.injEq] at hp
                    rw [← hp.1]
                    rfl
                  · exact absurd hp (by simp)
                · split at hp
                  · split at hp
                    · rw [Option.some.injEq, Prod.mk.injEq] at hp
                      rw [← hp.1]
                      rfl
                    · exact absurd hp (by simp)
                  · simp only [Option.map_eq_some'] at hp
                    obtain ⟨a, _, ha⟩ := hp
                    rw [Prod.mk.injEq] at ha
                    rw [← ha.1]
                    rfl
    · intro s acc j rest hd hw hp
      simp only [parseF] at hp
      split at hp
      · split at hp
        · exact absurd hp (by simp)
        · next k r1 _ =>
          split at hp
          · split at hp
            · exact absurd hp (by simp)
            · next v r3 hv =>
              have hvwf : v.wf = true := ihA _ _ _ hv
              obtain ⟨hd2, hw2⟩ := objInsert_wf k v acc hd hw hvwf
              split at hp
              · exact ihB _ _ _ _ hd2 hw2 hp
              · rw [Option.some.injEq, Prod.mk.injEq] at hp
                rw [← hp.1]
                show (keysDistinct (objInsert k v acc) && wfKvs (objInsert k v acc)) = true
                rw [hd2, hw2]
                rfl
              · exact absurd hp (by simp)
          · exact absurd hp (by simp)
      · exact absurd hp (by simp)
    · intro s acc j rest hl hp
      simp only [parseF] at hp
      split at hp
      · exact absurd hp (by simp)
      · next v r1 hv =>
        have hvwf : v.wf = true := ihA _ _ _ hv
        have hl2 : wfList (acc ++ [v]) = true := wfList_append_one acc v hl hvwf
        split at hp
        · exact ihC _ _ _ _ hl2 hp
        · rw [Option.some.injEq, Prod.mk.injEq] at hp
          rw [← hp.1]
          show wfList (acc ++ [v]) = true
          exact hl2
        · exact absurd hp (by simp)

/-- `json.loads` only produces well-formed values. -/
theorem jsonLoads_wf (s : Str) (j : Json) (h : jsonLoads s = some j) : j.wf = true := by
  unfold jsonLoads at h
  split at h
  · next j2 rest hp =>
    split at h
    · rw [Option.some.injEq] at h
      rw [← h]
      exact (parseF_wf _).1 _ _ _ hp
    · exact absurd h (by simp)
  · exact absurd h (by simp)

/-! ## Symbolic HMAC (ideal MAC)

The repository computes HMAC signatures through PyJWT, which calls the
external `hmac`/`hashlib` libraries.  The primitive is modelled as an
ideal MAC: an injective function of (algorithm, key, message) into byte
strings.  Injectivity in the key — for a fixed message — stands in for
the cryptographic assumption that distinct secrets produce distinct
MACs. -/

/-- Tag byte of an algorithm name. -/
def algByte (alg : Str) : Nat :=
  if alg = chars "HS256" then 0
  else if alg = chars "HS384" then 1
  else if alg = chars "HS512" then 2
  else 3

/-- Two-digit base-255 encoding of one byte (the value 255 stays free
for use as a separator). -/
def byte2 (b : Nat) : List Nat := [b / 255, b % 255]

def bytes2 : Bytes → List Nat
  | [] => []
  | b :: rest => byte2 b ++ bytes2 rest

/-- The ideal MAC: `algByte ∥ base255(key) ∥ 255 ∥ base255(msg)`. -/
def hmacModel (alg : Str) (key msg : Bytes) : Bytes :=
  algByte alg :: (bytes2 key ++ 255 :: bytes2 msg)

theorem bytes2_lt (bs : Bytes) (h : IsBytes bs) : ∀ d ∈ bytes2 bs, d < 255 := by
  induction bs with
  | nil => intro d hd; simp [bytes2] at hd
  | cons b rest ih =>
    intro d hd
    have hb : b < 256 := h b (by simp)
    simp only [bytes2, byte2, List.cons_append, List.mem_cons] at hd
    rcases hd with hd | hd | hd
    · omega
    · omega
    · exact ih (fun x hx => h x (by simp [hx])) d hd

theorem hmacModel_isBytes (alg : Str) (key msg : Bytes) (hk : IsBytes key)
    (hm : IsBytes msg) : IsBytes (hmacModel alg key msg) := by
  intro d hd
  simp only [hmacModel, List.mem_cons, List.mem_append] at hd
  rcases hd with hd | hd | hd
  · subst hd
    unfold algByte
    repeat' split
    all_goals omega
  · have := bytes2_lt key hk d hd
    omega
  · rcases hd with hd | hd
    · omega
    · have := bytes2_lt msg hm d hd
      omega

theorem append_sep_inj (sep : Nat) (a : List Nat) :
    ∀ b x y, sep ∉ a → sep ∉ b → a ++ sep :: x = b ++ sep :: y → a = b ∧ x = y := by
  induction a with
  | nil =>
    intro b x y _ hb he
    cases b with
    | nil => simp at he; exact ⟨rfl, he⟩
    | cons q t =>
      simp only [List.nil_append, List.cons_append, List.cons.injEq] at he
      exact absurd (he.1 ▸ hb) (by simp)
  | cons p t ih =>
    intro b x y ha hb he
    cases b with
    | nil =>
      simp only [List.cons_append, List.nil_append, List.cons.injEq] at he
      exact absurd (he.1.symm ▸ ha) (by simp)
    | cons q u =>
      simp only [List.cons_append, List.cons.injEq] at he
      obtain ⟨h1, h2⟩ := he
      obtain ⟨h3, h4⟩ := ih u x y (fun hx => ha (by simp [hx])) (fun hx => hb (by simp [hx])) h2
      exact ⟨by rw [h1, h3], h4⟩

theorem bytes2_inj (bs : Bytes) :
    ∀ cs, IsBytes bs → IsBytes cs → bytes2 bs = bytes2 cs → bs = cs := by
  induction bs with
  | nil =>
    intro cs _ _ he
    cases cs with
    | nil => rfl
    | cons c t => simp [bytes2, byte2] at he
  | cons b t ih =>
    intro cs hb hc he
    cases cs with
    | nil => simp [bytes2, byte2] at he
    | cons c u =>
      simp only [bytes2, byte2, List.cons_append, List.cons.injEq] at he
      obtain ⟨h1, h2, h3⟩ := he
      have hbb : b < 256 := hb b (by simp)
      have hcc : c < 256 := hc c (by simp)
      have : b = c := by omega
      rw [this, ih u (fun x hx => hb x (by simp [hx])) (fun x hx => hc x (by simp [hx])) h3]

/-- For a fixed algorithm and message, the MAC determines the key: the
ideal-MAC counterpart of "only the signing secret verifies". -/
theorem hmacModel_key_inj (alg : Str) (k1 k2 msg : Bytes) (h1 : IsBytes k1)
    (h2 : IsBytes k2)
    (he : hmacModel alg k1 msg = hmacModel alg k2 msg) : k1 = k2 := by
  simp only [hmacModel, List.cons.injEq] at he
  have hs1 : (255 : Nat) ∉ bytes2 k1 := fun hx => absurd (bytes2_lt k1 h1 255 hx) (by omega)
  have hs2 : (255 : Nat) ∉ bytes2 k2 := fun hx => absurd (bytes2_lt k2 h2 255 hx) (by omega)
  obtain ⟨hk, _⟩ := append_sep_inj 255 (bytes2 k1) (bytes2 k2) (bytes2 msg) (bytes2 msg)
    hs1 hs2 he.2
  exact bytes2_inj k1 k2 h1 h2 hk

/-! ## The `JWTUtils` functions of `src/utils/jwt_utils.py` -/

/-- `JWTUtils._safe_b64encode` (lines 165-168): UTF-8 encode, base64url
encode, strip the `=` padding. -/
def safeB64Encode (data : Str) : Str := rstripEq (b64Encode (utf8Encode data))

/-- The base64url + UTF-8 stage of `JWTUtils._safe_b64decode` (lines
158-161): restore the `=` padding, base64url decode, UTF-8 decode. -/
def segmentDecode (data : Str) : Option Str :=
  (b64Decode (restorePad data)).bind utf8Decode

/-- `JWTUtils._safe_b64decode` (lines 155-163): on any base64, UTF-8 or
JSON failure the `except` branch returns `{}`. -/
def safeB64Decode (data : Str) : Json :=
  match (segmentDecode data).bind jsonLoads with
  | some j => j
  | none => Json.obj []

/-- The segment codec round-trips through the padding normalization. -/
theorem segmentDecode_safeB64Encode (s : Str) : segmentDecode (safeB64Encode s) = some s := by
  unfold segmentDecode safeB64Encode
  rw [b64Decode_restorePad_rstripEq _ (utf8Encode_isBytes s)]
  simp [utf8Decode_utf8Encode]

/-- Decoding an encoded serialized value recovers the value. -/
theorem safeB64Decode_safeB64Encode_dumps (j : Json) (hwf : j.wf = true) :
    safeB64Decode (safeB64Encode (dumps j)) = j := by
  unfold safeB64Decode
  rw [segmentDecode_safeB64Encode]
  simp [jsonLoads_dumps j hwf]

/-- Encoded segments contain no dot. -/
theorem safeB64Encode_no_dot (s : Str) : '.' ∉ safeB64Encode s :=
  rstripEq_b64Encode_no_dot _ (utf8Encode_isBytes s)

/-- Encoded segments contain no padding character. -/
theorem safeB64Encode_no_eq (s : Str) : '=' ∉ safeB64Encode s :=
  rstripEq_b64Encode_no_eq _ (utf8Encode_isBytes s)

/-- The algorithms `decode_token` passes to `jwt.decode` (line 23). -/
def decodeAlgs : List Str :=
  [chars "HS256", chars "HS384", chars "HS512", chars "RS256", chars "ES256"]

/-- The HMAC-family algorithms. -/
def hsAlgs : List Str := [chars "HS256", chars "HS384", chars "HS512"]

/-- PyJWT's base64url segment without padding, over raw bytes. -/
def b64seg (bs : Bytes) : Str := rstripEq (b64Encode bs)

/-- PyJWT's padding-restoring base64url decode, over raw bytes. -/
def segDecodeBytes (s : Str) : Option Bytes := b64Decode (restorePad s)

theorem segDecodeBytes_b64seg (bs : Bytes) (h : IsBytes bs) :
    segDecodeBytes (b64seg bs) = some bs :=
  b64Decode_restorePad_rstripEq bs h

/-- PyJWT `jwt.encode(payload, secret, algorithm=alg)` for the
HMAC-family algorithms, under the symbolic MAC.  PyJWT serializes with
compact separators and header `{"typ": "JWT", "alg": alg}`. -/
def jwtEncode (payload : Json) (secret : Str) (alg : Str) : Str :=
  let header := Json.obj [(chars "typ", Json.str (chars "JWT")), (chars "alg", Json.str alg)]
  let h64 := b64seg (utf8Encode (dumpsCompact header))
  let p64 := b64seg (utf8Encode (dumpsCompact payload))
  let si := h64 ++ '.' :: p64
  let sig := hmacModel alg (utf8Encode secret) (utf8Encode si)
  h64 ++ '.' :: (p64 ++ '.' :: b64seg sig)

/-- PyJWT claim validation for the options `decode_token` uses
(`exp`/`nbf` against the clock; an `aud` claim with no expected audience
is an `InvalidAudienceError`). -/
def claimsOk (payload : List (Str × Json)) (now : Int) : Bool :=
  (match objGet payload (chars "exp") with
    | some (Json.num e) => decide (now ≤ e)
    | some _ => false
    | none => true)
  && (match objGet payload (chars "nbf") with
    | some (Json.num n) => decide (n ≤ now)
    | some _ => false
    | none => true)
  && (match objGet payload (chars "aud") with
    | some _ => false
    | none => true)

/-- PyJWT `jwt.decode(token, secret, algorithms=[...])` under the
symbolic MAC: split, decode the header, check the algorithm against the
allowed list, recompute and compare the signature (asymmetric algorithms
fail on the raw string secret), then validate claims. -/
def jwtDecodeVerified (token : Str) (secret : Str) (now : Int) : Option Json :=
  match splitDots token with
  | [h64, p64, s64] => do
    let hb ← segDecodeBytes h64
    let hs ← utf8Decode hb
    let hj ← jsonLoads hs
    match hj with
    | Json.obj hkvs =>
      match objGet hkvs (chars "alg") with
      | some (Json.str alg) =>
        if alg ∈ decodeAlgs then
          if alg ∈ hsAlgs then do
            let sig ← segDecodeBytes s64
            let pb ← segDecodeBytes p64
            let ps ← utf8Decode pb
            let pj ← jsonLoads ps
            match pj with
            | Json.obj pkvs =>
              if sig = hmacModel alg (utf8Encode secret) (utf8Encode (h64 ++ '.' :: p64)) then
                if claimsOk pkvs now then some (Json.obj pkvs) else none
              else none
            | _ => none
          else none
        else none
      | _ => none
    | _ => none
  | _ => none

/-- PyJWT `jwt.decode(token, options={"verify_signature": False})`:
structure and JSON checks only. -/
def jwtDecodeUnverified (token : Str) : Option Json :=
  match splitDots token with
  | [h64, p64, s64] => do
    let hb ← segDecodeBytes h64
    let hs ← utf8Decode hb
    let hj ← jsonLoads hs
    let _sig ← segDecodeBytes s64
    let pb ← segDecodeBytes p64
    let ps ← utf8Decode pb
    let pj ← jsonLoads ps
    match hj, pj with
    | Json.obj _, Json.obj pkvs => some (Json.obj pkvs)
    | _, _ => none
  | _ => none

/-- `JWTUtils.decode_token` (lines 18-29): the verified branch runs only
when `verify` is set and the secret is non-empty (Python truthiness of
`secret`); the catch-all `except` is the `none` result. -/
def decodeToken (token : Str) (verify : Bool) (secret : Str) (now : Int) : Option Json :=
  if verify = true ∧ secret ≠ [] then jwtDecodeVerified token secret now
  else jwtDecodeUnverified token

/-- The default payload of `create_test_token` (lines 116-121), with
`time()` passed explicitly. -/
def defaultPayload (now : Int) : List (Str × Json) :=
  [(chars "sub", Json.str (chars "1234567890")),
   (chars "name", Json.str (chars "GraphCrack Test User")),
   (chars "iat", Json.num now),
   (chars "exp", Json.num (now + 3600))]

/-- `JWTUtils.create_test_token` (lines 113-124): merge the caller's
payload over the defaults (`if payload:` skips a falsy empty dict) and
sign with PyJWT. -/
def createTestToken (secret : Str) (alg : Str) (payload : Option (List (Str × Json)))
    (now : Int) : Str :=
  let merged := match payload with
    | none => defaultPayload now
    | some [] => defaultPayload now
    | some (q :: t) => objUpdate (defaultPayload now) (q :: t)
  jwtEncode (Json.obj merged) secret alg

/-- `JWTUtils.forge_unsigned_token` (lines 126-137): `payload or {...}`
falls back to the default on `None` or an empty dict. -/
def forgeUnsignedToken (payload : Option (List (Str × Json))) : Str :=
  let defaultData := [(chars "user", Json.str (chars "admin")),
    (chars "role", Json.str (chars "superuser"))]
  let data := match payload with
    | none => defaultData
    | some [] => defaultData
    | some (q :: t) => q :: t
  let header := Json.obj [(chars "alg", Json.str (chars "none")),
    (chars "typ", Json.str (chars "JWT"))]
  safeB64Encode (dumps header) ++ '.' :: (safeB64Encode (dumps (Json.obj data)) ++ ['.'])

/-- `JWTUtils.mutate_algorithm` (lines 139-150): decode the first
segment, set `alg`, re-encode, rejoin; the `TypeError` from indexing a
non-dict "header" hits the `except` branch, which returns the token
unchanged. -/
def mutateAlgorithm (token : Str) (newAlg : Str) : Str :=
  let parts := splitDots token
  match safeB64Decode (parts.headD []) with
  | Json.obj h =>
    joinDots (safeB64Encode (dumps (Json.obj (objInsert (chars "alg") (Json.str newAlg) h)))
      :: parts.tail)
  | _ => token

/-! ## `JWTUtils.analyze_token` (lines 34-99) -/

/-- The analysis record built by `analyze_token`. -/
structure TokenAnalysis where
  valid : Bool
  header : Json
  payload : Json
  algorithm : Option Json
  vulnerabilities : List Str
  recommendations : List Str

/-- Python `str.lower()` (code points in our tokens are ASCII). -/
def toLowerStr (s : Str) : Str := s.map Char.toLower

/-- Python `s.startswith(pre)`. -/
def strStartsWith : Str → Str → Bool
  | _, [] => true
  | [], _ :: _ => false
  | c :: s, p :: ps => c = p && strStartsWith s ps

/-- The generic message of the outer `except` branch (line 97; the
Python text interpolates the exception). -/
def failMsg : Str := chars "Token analysis failed."

/-- The algorithm checks of lines 62-78, appending to the vulnerability
and recommendation lists. -/
def analyzeAlgPhase (vs rs : List Str) (alg : Str) : List Str × List Str :=
  let p1 := if alg = chars "none" then
      (vs ++ [chars "⚠️ Algorithm \"none\" vulnerability (unsigned token)."],
       rs ++ [chars "Disallow 'none' as an algorithm on the server side."])
    else (vs, rs)
  let p2 := if alg = [] then
      (p1.1 ++ [chars "❌ Missing algorithm field."],
       p1.2 ++ [chars "Ensure tokens always specify an algorithm."])
    else p1
  let p3 := if alg ∈ [chars "hs256", chars "hs384", chars "hs512"] then
      (p2.1 ++ [chars "⚠️ Symmetric algorithm in use (" ++ alg ++
          chars "). Brute-force possible."],
       p2.2 ++ [chars "Use asymmetric keys (RS256/ES256) with strict signature validation."])
    else p2
  if strStartsWith alg (chars "hs") then
    (p3.1 ++ [chars "⚠️ Possible key confusion vector if server also supports RS256."], p3.2)
  else p3

/-- The payload checks of lines 81-94: `payload.get` on a non-dict and
ill-typed comparisons raise into the outer `except` (keeping whatever
was appended so far, plus the failure message); Python truthiness of
`exp` skips falsy values. -/
def analyzePayloadPhase (vs rs : List Str) (payload : Json) (now : Int) :
    List Str × List Str :=
  match payload with
  | Json.obj pkvs =>
    let expRes : Option (List Str × List Str) :=
      match objGet pkvs (chars "exp") with
      | none => some (vs, rs)
      | some (Json.num e) =>
        if e ≠ 0 ∧ e < now then
          some (vs ++ [chars "⏰ Token expired."],
            rs ++ [chars "Ensure expired tokens are rejected server-side."])
        else some (vs, rs)
      | some (Json.bool true) =>
        if (1 : Int) < now then
          some (vs ++ [chars "⏰ Token expired."],
            rs ++ [chars "Ensure expired tokens are rejected server-side."])
        else some (vs, rs)
      | some (Json.bool false) => some (vs, rs)
      | some Json.null => some (vs, rs)
      | some (Json.str s) => match s with | [] => some (vs, rs) | _ => none
      | some (Json.arr xs) => match xs with | [] => some (vs, rs) | _ => none
      | some (Json.obj kv) => match kv with | [] => some (vs, rs) | _ => none
    match expRes with
    | none => (vs ++ [failMsg], rs)
    | some p2 =>
      let p3 := if (objGet pkvs (chars "iss")).isNone then
          (p2.1 ++ [chars "Missing 'iss' claim."],
           p2.2 ++ [chars "Enforce validation of 'iss' claim."])
        else p2
      let p4 := if (objGet pkvs (chars "aud")).isNone then
          (p3.1 ++ [chars "Missing 'aud' claim."],
           p3.2 ++ [chars "Enforce validation of 'aud' claim."])
        else p3
      match objGet pkvs (chars "iat") with
      | none => p4
      | some (Json.num i) => if now < i then
          (p4.1 ++ [chars "⚠️ Issued-at (iat) timestamp is in the future."], p4.2)
        else p4
      | some (Json.bool b) => if now < (if b then 1 else 0) then
          (p4.1 ++ [chars "⚠️ Issued-at (iat) timestamp is in the future."], p4.2)
        else p4
      | some _ => (p4.1 ++ [failMsg], p4.2)
  | _ => (vs ++ [failMsg], rs)

/-- `JWTUtils.analyze_token`: the wrong segment count returns an invalid
analysis; a header that decodes to a non-mapping raises inside the
`analysis.update(...)` argument (line 58) before `valid` is set; every
later failure leaves `valid = True`. -/
def analyzeToken (token : Str) (now : Int) : TokenAnalysis :=
  if (splitDots token).length ≠ 3 then
    ⟨false, Json.obj [], Json.obj [], none,
      [chars "Invalid JWT format (expected 3 parts)."], []⟩
  else
    match safeB64Decode ((splitDots token).headD []) with
    | Json.obj hkvs =>
      match objGet hkvs (chars "alg") with
      | some (Json.str s) =>
        let p1 := analyzeAlgPhase [] [] (toLowerStr s)
        let p2 := analyzePayloadPhase p1.1 p1.2
          (safeB64Decode ((splitDots token).getD 1 [])) now
        ⟨true, Json.obj hkvs, safeB64Decode ((splitDots token).getD 1 []),
          objGet hkvs (chars "alg"), p2.1, p2.2⟩
      | none =>
        let p1 := analyzeAlgPhase [] [] []
        let p2 := analyzePayloadPhase p1.1 p1.2
          (safeB64Decode ((splitDots token).getD 1 [])) now
        ⟨true, Json.obj hkvs, safeB64Decode ((splitDots token).getD 1 []),
          objGet hkvs (chars "alg"), p2.1, p2.2⟩
      | some _ =>
        ⟨true, Json.obj hkvs, safeB64Decode ((splitDots token).getD 1 []),
          objGet hkvs (chars "alg"), [failMsg], []⟩
    | _ => ⟨false, Json.obj [], Json.obj [], none, [failMsg], []⟩

/-- `analyze_token` marks the analysis valid exactly when the token has
three segments and the first decodes (via `_safe_b64decode`) to a
mapping. -/
theorem analyzeToken_valid_iff (token : Str) (now : Int) :
    (analyzeToken token now).valid = true ↔
      ((splitDots token).length = 3 ∧
        (safeB64Decode ((splitDots token).headD [])).isObj = true) := by
  unfold analyzeToken
  split
  · next hne =>
    constructor
    · intro h
      exact absurd h (by simp)
    · intro ⟨h3, _⟩
      exact absurd h3 hne
  · next h3 =>
    rw [not_not] at h3
    split
    · next hkvs heq =>
      split
      all_goals
        constructor
        · intro _
          exact ⟨h3, by rw [heq]; rfl⟩
        · intro _
          rfl
    · next hno =>
      constructor
      · intro h
        exact absurd h (by simp)
      · intro ⟨_, hobj⟩
        cases hdec : safeB64Decode ((splitDots token).headD []) with
        | obj kvs => exact absurd hdec (by intro hcon; exact hno kvs hcon)
        | str s => rw [hdec] at hobj; simp [Json.isObj] at hobj
        | num n => rw [hdec] at hobj; simp [Json.isObj] at hobj
        | bool b => rw [hdec] at hobj; simp [Json.isObj] at hobj
        | null => rw [hdec] at hobj; simp [Json.isObj] at hobj
        | arr xs => rw [hdec] at hobj; simp [Json.isObj] at hobj

/-! ## The bruteforce core, modelled from the spec

`graphql_crack.py` imports `core.exploit.jwt_bruteforce.JWTBruteforcer`,
but `core/exploit/jwt_bruteforce.py` is not present in the source tree;
only its callers are.  The definitions below are therefore modelled from
the specification (§3, §4.2, §4.3, §5) and marked as such. -/

/-- Modelled from the spec (§3 Token): the parsed-token value consumed
by the verifier — algorithm, literal signing input, signature bytes
(`core/exploit/jwt_bruteforce.py` missing from the source tree). -/
structure Token where
  alg : Str
  signingInput : Str
  signature : Bytes

/-- Modelled from the spec (§4.1 TokenCodec): a parsed token keeping the
literal original encoded segments
(`core/exploit/jwt_bruteforce.py` missing from the source tree). -/
structure ParsedToken where
  rawHeader : Str
  rawPayload : Str
  rawSignature : Str
  header : List (Str × Json)
  payload : List (Str × Json)
  sigBytes : Bytes

/-- Modelled from the spec (§4.1 `parse`): fail (`MalformedTokenError`)
unless the input splits into exactly three dot-separated segments whose
first two are base64url-encoded JSON objects
(`core/exploit/jwt_bruteforce.py` missing from the source tree). -/
def tcParse (compact : Str) : Option ParsedToken :=
  match splitDots compact with
  | [p0, p1, p2] => do
    let hs ← segmentDecode p0
    let hj ← jsonLoads hs
    let ps ← segmentDecode p1
    let pj ← jsonLoads ps
    let sb ← segDecodeBytes p2
    match hj, pj with
    | Json.obj h, Json.obj p => some ⟨p0, p1, p2, h, p, sb⟩
    | _, _ => none
  | _ => none

/-- Modelled from the spec (§4.1 `signingInput`): the literal original
first two segments rejoined with `.`
(`core/exploit/jwt_bruteforce.py` missing from the source tree). -/
def tcSigningInput (t : ParsedToken) : Str := t.rawHeader ++ '.' :: t.rawPayload

/-- Modelled from the spec (§4.2): the supported symmetric algorithms. -/
def supportedAlgs : List Str := hsAlgs

/-- Modelled from the spec (§4.2 SignatureVerifier.verify): recompute
the MAC under the token's algorithm and compare; unsupported or
asymmetric algorithms return `false` deterministically rather than
throwing (`core/exploit/jwt_bruteforce.py` missing from the source
tree). -/
def svVerify (t : Token) (secret : Str) : Bool :=
  if t.alg ∈ supportedAlgs then
    t.signature = hmacModel t.alg (utf8Encode secret) (utf8Encode t.signingInput)
  else false

/-- A token signed with `secret` under `alg` (the spec's "token signed
with S under A"). -/
def mkSignedToken (alg : Str) (secret : Str) (input : Str) : Token :=
  ⟨alg, input, hmacModel alg (utf8Encode secret) (utf8Encode input)⟩

/-- Modelled from the spec (§4.3): terminal states of one run. -/
inductive BState where
  | found
  | exhausted
  | unsupportedAlgorithm
deriving DecidableEq

/-- Modelled from the spec (§3 BruteforceResult). -/
structure BruteforceResult where
  state : BState
  success : Bool
  secret : Option Str
  attempts : Nat

/-- First verifying candidate of a stream segment, in stream order
(unreadable lines are `none` entries and are skipped). -/
def firstMatch (t : Token) : List (Option Str) → Option Str
  | [] => none
  | none :: rest => firstMatch t rest
  | some c :: rest => if svVerify t c then some c else firstMatch t rest

/-- Modelled from the spec (§4.3, §8): the sequential reference loop;
readable candidates count toward `attempts`, unreadable lines are
skipped (`core/exploit/jwt_bruteforce.py` missing from the source
tree). -/
def runSeqLoop (t : Token) : List (Option Str) → Nat → BruteforceResult
  | [], att => ⟨.exhausted, false, none, att⟩
  | none :: rest, att => runSeqLoop t rest att
  | some c :: rest, att =>
    if svVerify t c then ⟨.found, true, some c, att + 1⟩
    else runSeqLoop t rest (att + 1)

/-- Modelled from the spec (§4.3 `run`): an unsupported algorithm fails
before any candidate is consumed; otherwise scan the stream
(`core/exploit/jwt_bruteforce.py` missing from the source tree). -/
def runSeq (t : Token) (cands : List (Option Str)) : BruteforceResult :=
  if t.alg ∈ supportedAlgs then runSeqLoop t cands 0
  else ⟨.unsupportedAlgorithm, false, none, 0⟩

/-- Modelled from the spec (§4.3, §5): the concurrency-`m+1` loop; each
scheduling round the lanes claim the next `m+1` candidates in stream
order, every readable candidate verified counts toward `attempts`, and
on simultaneous matches the lowest original stream index wins.  Fuel is
the stream length (each round consumes at least one candidate)
(`core/exploit/jwt_bruteforce.py` missing from the source tree). -/
def runConcLoop (t : Token) (m : Nat) : Nat → List (Option Str) → Nat → BruteforceResult
  | _, [], att => ⟨.exhausted, false, none, att⟩
  | 0, _ :: _, att => ⟨.exhausted, false, none, att⟩
  | fuel + 1, c :: rest, att =>
    let round := c :: rest.take m
    let att2 := att + (round.filterMap id).length
    match firstMatch t round with
    | some s => ⟨.found, true, some s, att2⟩
    | none => runConcLoop t m fuel (rest.drop m) att2

/-- Modelled from the spec (§4.3 `run` with `concurrency = k`)
(`core/exploit/jwt_bruteforce.py` missing from the source tree). -/
def runConc (t : Token) (cands : List (Option Str)) (k : Nat) : BruteforceResult :=
  if t.alg ∈ supportedAlgs then runConcLoop t (k - 1) cands.length cands 0
  else ⟨.unsupportedAlgorithm, false, none, 0⟩

theorem runSeqLoop_secret (t : Token) (cands : List (Option Str)) :
    ∀ att, (runSeqLoop t cands att).secret = firstMatch t cands := by
  induction cands with
  | nil => intro att; rfl
  | cons c rest ih =>
    intro att
    cases c with
    | none => exact ih att
    | some s =>
      simp only [runSeqLoop, firstMatch]
      split
      · rfl
      · exact ih (att + 1)

theorem firstMatch_append (t : Token) (a b : List (Option Str)) :
    firstMatch t (a ++ b) =
      (match firstMatch t a with
        | some s => some s
        | none => firstMatch t b) := by
  induction a with
  | nil => simp [firstMatch]
  | cons c rest ih =>
    cases c with
    | none => simpa [firstMatch] using ih
    | some s =>
      simp only [List.cons_append, firstMatch]
      split
      · rfl
      · exact ih

theorem runConcLoop_secret (t : Token) (m : Nat) :
    ∀ fuel cands att, cands.length ≤ fuel →
      (runConcLoop t m fuel cands att).secret = firstMatch t cands := by
  intro fuel
  induction fuel with
  | zero =>
    intro cands att hlen
    cases cands with
    | nil => rfl
    | cons c rest => simp at hlen
  | succ f ih =>
    intro cands att hlen
    cases cands with
    | nil => rfl
    | cons c rest =>
      simp only [runConcLoop]
      have hsplit : firstMatch t (c :: rest) =
          (match firstMatch t (c :: rest.take m) with
            | some s => some s
            | none => firstMatch t (rest.drop m)) := by
        conv_lhs => rw [show c :: rest = (c :: rest.take m) ++ rest.drop m from by simp]
        exact firstMatch_append t (c :: rest.take m) (rest.drop m)
      split
      · next s hs =>
        rw [hsplit, hs]
      · next hs =>
        rw [hsplit, hs]
        have : (rest.drop m).length ≤ f := by
          have := List.length_drop m rest
          simp at hlen
          omega
        exact ih (rest.drop m) _ this

/-- All concurrency levels recover the sequential (lowest-index) match:
the spec's concurrency invariance and deterministic tie-break. -/
theorem runConc_secret_eq_runSeq (t : Token) (cands : List (Option Str)) (k : Nat) :
    (runConc t cands k).secret = (runSeq t cands).secret := by
  unfold runConc runSeq
  split
  · rw [runConcLoop_secret t (k - 1) cands.length cands 0 le_rfl,
      runSeqLoop_secret t cands 0]
  · rfl

/-! ## Decoding an encoded token -/

theorem hsAlgs_sub_decodeAlgs (alg : Str) (h : alg ∈ hsAlgs) : alg ∈ decodeAlgs := by
  simp only [hsAlgs, List.mem_cons, List.not_mem_nil, or_false] at h
  rcases h with h | h | h
  all_goals (subst h; decide)

/-- The PyJWT header of `jwtEncode`. -/
def jwtHeader (alg : Str) : Json :=
  Json.obj [(chars "typ", Json.str (chars "JWT")), (chars "alg", Json.str alg)]

theorem jwtHeader_wf (alg : Str) : (jwtHeader alg).wf = true := by
  simp only [jwtHeader, Json.wf, keysDistinct, wfKvs, List.all_cons, List.all_nil,
    Bool.and_true, Bool.true_and, Bool.and_eq_true, decide_eq_true_eq]
  decide

theorem objGet_jwtHeader_alg (alg : Str) :
    objGet [(chars "typ", Json.str (chars "JWT")), (chars "alg", Json.str alg)]
      (chars "alg") = some (Json.str alg) := rfl

/-- Verified decoding of an encoded token: succeeds exactly for the
signing secret (by ideal-MAC injectivity) and a payload passing claim
validation. -/
theorem jwtDecodeVerified_jwtEncode (pkvs : List (Str × Json)) (secret s2 alg : Str)
    (now : Int) (halg : alg ∈ hsAlgs) (hwf : (Json.obj pkvs).wf = true) :
    jwtDecodeVerified (jwtEncode (Json.obj pkvs) secret alg) s2 now =
      if s2 = secret then
        (if claimsOk pkvs now then some (Json.obj pkvs) else none)
      else none := by
  have hH : '.' ∉ b64seg (utf8Encode (dumpsCompact (jwtHeader alg))) :=
    rstripEq_b64Encode_no_dot _ (utf8Encode_isBytes _)
  have hP : '.' ∉ b64seg (utf8Encode (dumpsCompact (Json.obj pkvs))) :=
    rstripEq_b64Encode_no_dot _ (utf8Encode_isBytes _)
  have hSbytes : IsBytes (hmacModel alg (utf8Encode secret)
      (utf8Encode (b64seg (utf8Encode (dumpsCompact (jwtHeader alg))) ++ '.' ::
        b64seg (utf8Encode (dumpsCompact (Json.obj pkvs)))))) :=
    hmacModel_isBytes _ _ _ (utf8Encode_isBytes _) (utf8Encode_isBytes _)
  have hS : '.' ∉ b64seg (hmacModel alg (utf8Encode secret)
      (utf8Encode (b64seg (utf8Encode (dumpsCompact (jwtHeader alg))) ++ '.' ::
        b64seg (utf8Encode (dumpsCompact (Json.obj pkvs)))))) :=
    rstripEq_b64Encode_no_dot _ hSbytes
  rw [show jwtEncode (Json.obj pkvs) secret alg =
    b64seg (utf8Encode (dumpsCompact (jwtHeader alg))) ++ '.' ::
      (b64seg (utf8Encode (dumpsCompact (Json.obj pkvs))) ++ '.' ::
        b64seg (hmacModel alg (utf8Encode secret)
          (utf8Encode (b64seg (utf8Encode (dumpsCompact (jwtHeader alg))) ++ '.' ::
            b64seg (utf8Encode (dumpsCompact (Json.obj pkvs))))))) from rfl]
  unfold jwtDecodeVerified
  rw [splitDots_three _ _ _ hH hP hS]
  simp only [Option.bind_eq_bind]
  rw [segDecodeBytes_b64seg _ (utf8Encode_isBytes _)]
  simp only [Option.some_bind]
  rw [utf8Decode_utf8Encode]
  simp only [Option.some_bind]
  rw [jsonLoads_dumpsCompact _ (jwtHeader_wf alg)]
  simp only [Option.some_bind, jwtHeader, objGet_jwtHeader_alg]
  rw [if_pos (hsAlgs_sub_decodeAlgs alg halg), if_pos halg]
  simp only [jwtHeader] at hSbytes
  rw [segDecodeBytes_b64seg _ hSbytes]
  simp only [Option.some_bind]
  rw [segDecodeBytes_b64seg _ (utf8Encode_isBytes _)]
  simp only [Option.some_bind]
  rw [utf8Decode_utf8Encode]
  simp only [Option.some_bind]
  rw [jsonLoads_dumpsCompact _ hwf]
  simp only [Option.some_bind]
  by_cases hs : s2 = secret
  · subst hs
    rw [if_pos rfl, if_pos rfl]
  · have hne : hmacModel alg (utf8Encode secret)
        (utf8Encode (b64seg (utf8Encode (dumpsCompact (jwtHeader alg))) ++ '.' ::
          b64seg (utf8Encode (dumpsCompact (Json.obj pkvs))))) ≠
      hmacModel alg (utf8Encode s2)
        (utf8Encode (b64seg (utf8Encode (dumpsCompact (jwtHeader alg))) ++ '.' ::
          b64seg (utf8Encode (dumpsCompact (Json.obj pkvs))))) := by
      intro he
      exact hs (utf8Encode_injective (hmacModel_key_inj alg _ _ _
        (utf8Encode_isBytes s2) (utf8Encode_isBytes secret) he.symm))
    rw [if_neg (by simpa [jwtHeader] using hne), if_neg hs]

/-- Unverified decoding of an encoded token always recovers the
payload. -/
theorem jwtDecodeUnverified_jwtEncode (pkvs : List (Str × Json)) (secret alg : Str)
    (hwf : (Json.obj pkvs).wf = true) :
    jwtDecodeUnverified (jwtEncode (Json.obj pkvs) secret alg) = some (Json.obj pkvs) := by
  have hH : '.' ∉ b64seg (utf8Encode (dumpsCompact (jwtHeader alg))) :=
    rstripEq_b64Encode_no_dot _ (utf8Encode_isBytes _)
  have hP : '.' ∉ b64seg (utf8Encode (dumpsCompact (Json.obj pkvs))) :=
    rstripEq_b64Encode_no_dot _ (utf8Encode_isBytes _)
  have hSbytes : IsBytes (hmacModel alg (utf8Encode secret)
      (utf8Encode (b64seg (utf8Encode (dumpsCompact (jwtHeader alg))) ++ '.' ::
        b64seg (utf8Encode (dumpsCompact (Json.obj pkvs)))))) :=
    hmacModel_isBytes _ _ _ (utf8Encode_isBytes _) (utf8Encode_isBytes _)
  have hS : '.' ∉ b64seg (hmacModel alg (utf8Encode secret)
      (utf8Encode (b64seg (utf8Encode (dumpsCompact (jwtHeader alg))) ++ '.' ::
        b64seg (utf8Encode (dumpsCompact (Json.obj pkvs)))))) :=
    rstripEq_b64Encode_no_dot _ hSbytes
  rw [show jwtEncode (Json.obj pkvs) secret alg =
    b64seg (utf8Encode (dumpsCompact (jwtHeader alg))) ++ '.' ::
      (b64seg (utf8Encode (dumpsCompact (Json.obj pkvs))) ++ '.' ::
        b64seg (hmacModel alg (utf8Encode secret)
          (utf8Encode (b64seg (utf8Encode (dumpsCompact (jwtHeader alg))) ++ '.' ::
            b64seg (utf8Encode (dumpsCompact (Json.obj pkvs))))))) from rfl]
  unfold jwtDecodeUnverified
  rw [splitDots_three _ _ _ hH hP hS]
  simp only [Option.bind_eq_bind]
  rw [segDecodeBytes_b64seg _ (utf8Encode_isBytes _)]
  simp only [Option.some_bind]
  rw [utf8Decode_utf8Encode]
  simp only [Option.some_bind]
  rw [jsonLoads_dumpsCompact _ (jwtHeader_wf alg)]
  simp only [Option.some_bind]
  rw [segDecodeBytes_b64seg _ hSbytes]
  simp only [Option.some_bind]
  rw [segDecodeBytes_b64seg _ (utf8Encode_isBytes _)]
  simp only [Option.some_bind]
  rw [utf8Decode_utf8Encode]
  simp only [Option.some_bind]
  rw [jsonLoads_dumpsCompact _ hwf]
  simp only [Option.some_bind, jwtHeader]

/-! ## Further helper lemmas for the claims -/

theorem joinDots_cons (p q : Str) (qs : List Str) :
    joinDots (p :: q :: qs) = p ++ '.' :: joinDots (q :: qs) := rfl

/-- Splitting inverts joining: the compact form is recoverable from its
segments. -/
theorem joinDots_splitDots (s : Str) : joinDots (splitDots s) = s := by
  induction s with
  | nil => rfl
  | cons c rest ih =>
    obtain ⟨q, qs, hq⟩ : ∃ q qs, splitDots rest = q :: qs := by
      cases h : splitDots rest with
      | nil => exact absurd h (splitDots_ne_nil rest)
      | cons q qs => exact ⟨q, qs, rfl⟩
    simp only [splitDots]
    split
    · next hc =>
      subst hc
      rw [hq, joinDots_cons, ← hq, ih]
      rfl
    · next hc =>
      rw [hq]
      simp only [consPiece]
      cases qs with
      | nil =>
        have hqr : q = rest := by rw [hq] at ih; exact ih
        rw [hqr]
        rfl
      | cons q2 qs2 =>
        rw [joinDots_cons]
        rw [hq, joinDots_cons] at ih
        simp only [List.cons_append]
        rw [ih]

theorem objGet_objInsert (k : Str) (v : Json) (l : List (Str × Json)) :
    objGet (objInsert k v l) k = some v := by
  induction l with
  | nil => simp [objInsert, objGet, List.find?]
  | cons p rest ih =>
    obtain ⟨k1, v1⟩ := p
    by_cases hk : k1 = k
    · simp [objInsert, if_pos hk, objGet, List.find?, hk]
    · simp only [objInsert, if_neg hk, objGet, List.find?] at ih ⊢
      rw [show (decide (k1 = k)) = false from decide_eq_false hk]
      exact ih

theorem emptyObj_wf : (Json.obj []).wf = true := by
  simp only [Json.wf, keysDistinct, wfKvs]
  decide

/-- Whatever `_safe_b64decode` returns satisfies the dict invariants. -/
theorem safeB64Decode_wf (d : Str) : (safeB64Decode d).wf = true := by
  unfold safeB64Decode
  split
  · next j hj =>
    obtain ⟨s, _, hs⟩ := Option.bind_eq_some.mp hj
    exact jsonLoads_wf s j hs
  · exact emptyObj_wf

theorem defaultPayload_wf (now : Int) : (Json.obj (defaultPayload now)).wf = true := by
  simp only [defaultPayload, Json.wf, keysDistinct, wfKvs, List.all_cons, List.all_nil]
  rfl

/-- Verification of a token signed with `S` succeeds exactly on `S`
(ideal-MAC key injectivity). -/
theorem svVerify_mkSignedToken_iff (alg S input c : Str) (h : alg ∈ supportedAlgs) :
    svVerify (mkSignedToken alg S input) c = true ↔ c = S := by
  simp only [svVerify, mkSignedToken]
  rw [if_pos h]
  simp only [decide_eq_true_eq]
  constructor
  · intro he
    exact (utf8Encode_injective (hmacModel_key_inj alg _ _ _
      (utf8Encode_isBytes S) (utf8Encode_isBytes c) he)).symm
  · intro he
    subst he
    rfl

/-- If no readable candidate verifies, the sequential loop exhausts the
stream, counting exactly the readable lines. -/
theorem runSeqLoop_no_match (t : Token) (cands : List (Option Str)) :
    ∀ att, (∀ c, some c ∈ cands → svVerify t c = false) →
      runSeqLoop t cands att = ⟨.exhausted, false, none, att + (cands.filterMap id).length⟩ := by
  induction cands with
  | nil => intro att _; simp [runSeqLoop]
  | cons o rest ih =>
    intro att hno
    cases o with
    | none =>
      rw [show runSeqLoop t (none :: rest) att = runSeqLoop t rest att from rfl]
      rw [ih att (fun c hc => hno c (List.mem_cons_of_mem _ hc))]
      rfl
    | some c =>
      have hc : svVerify t c = false := hno c (List.mem_cons_self _ _)
      rw [show runSeqLoop t (some c :: rest) att = runSeqLoop t rest (att + 1) from by
        simp [runSeqLoop, hc]]
      rw [ih (att + 1) (fun c' hc' => hno c' (List.mem_cons_of_mem _ hc'))]
      simp only [List.filterMap_cons, id, BruteforceResult.mk.injEq, List.length_cons,
        true_and]
      omega

/-- If the stream contains `S` and only `S` verifies, the sequential
loop reports `S` within the stream length. -/
theorem runSeqLoop_found (t : Token) (S : Str) (hS : svVerify t S = true)
    (huniq : ∀ c, svVerify t c = true → c = S) (cands : List (Option Str)) :
    ∀ att, some S ∈ cands →
      (runSeqLoop t cands att).state = BState.found ∧
      (runSeqLoop t cands att).success = true ∧
      (runSeqLoop t cands att).secret = some S ∧
      (runSeqLoop t cands att).attempts ≤ att + cands.length := by
  induction cands with
  | nil => intro att hmem; simp at hmem
  | cons o rest ih =>
    intro att hmem
    cases o with
    | none =>
      have hmem2 : some S ∈ rest := by
        rcases List.mem_cons.mp hmem with h | h
        · exact absurd h (by simp)
        · exact h
      have hr := ih att hmem2
      rw [show runSeqLoop t (none :: rest) att = runSeqLoop t rest att from rfl]
      refine ⟨hr.1, hr.2.1, hr.2.2.1, ?_⟩
      have := hr.2.2.2
      simp only [List.length_cons]
      omega
    | some c =>
      by_cases hv : svVerify t c = true
      · have hcS : c = S := huniq c hv
        subst hcS
        rw [show runSeqLoop t (some c :: rest) att = ⟨.found, true, some c, att + 1⟩ from by
          simp [runSeqLoop, hv]]
        refine ⟨rfl, rfl, rfl, ?_⟩
        simp only [List.length_cons]
        omega
      · have hmem2 : some S ∈ rest := by
          rcases List.mem_cons.mp hmem with h | h
          · have hSc : S = c := Option.some.inj h
            rw [← hSc] at hv
            exact absurd hS hv
          · exact h
        have hvf : svVerify t c = false := Bool.eq_false_iff.mpr hv
        rw [show runSeqLoop t (some c :: rest) att = runSeqLoop t rest (att + 1) from by
          simp [runSeqLoop, hvf]]
        have hr := ih (att + 1) hmem2
        refine ⟨hr.1, hr.2.1, hr.2.2.1, ?_⟩
        have := hr.2.2.2
        simp only [List.length_cons]
        omega

/-- A token whose algorithm is unsupported matches no candidate. -/
theorem firstMatch_unsupported (t : Token) (h : t.alg ∉ supportedAlgs) :
    ∀ cands, firstMatch t cands = none := by
  intro cands
  induction cands with
  | nil => rfl
  | cons o rest ih =>
    cases o with
    | none => exact ih
    | some c =>
      have hf : svVerify t c = false := by unfold svVerify; rw [if_neg h]
      simp [firstMatch, hf]
      exact ih

/-! ## The claims -/

/-- C1: with a supported symmetric algorithm, `SecretBruteforcer.run`
over a finite candidate stream finds the signing secret `S` whenever the
stream contains it — `success = true`, `secret = S`, within
`attempts ≤ len(stream)` — and otherwise exhausts the stream with
`success = false`, `secret = none` and `attempts` equal to the number of
readable lines (unreadable lines skipped). -/
theorem run_finds_secret_or_exhausts (alg S input : Str) (cands : List (Option Str))
    (halg : alg ∈ supportedAlgs) :
    (some S ∈ cands →
      (runSeq (mkSignedToken alg S input) cands).state = BState.found ∧
      (runSeq (mkSignedToken alg S input) cands).success = true ∧
      (runSeq (mkSignedToken alg S input) cands).secret = some S ∧
      (runSeq (mkSignedToken alg S input) cands).attempts ≤ cands.length) ∧
    (some S ∉ cands →
      runSeq (mkSignedToken alg S input) cands =
        ⟨BState.exhausted, false, none, (cands.filterMap id).length⟩) := by
  have hrun : runSeq (mkSignedToken alg S input) cands =
      runSeqLoop (mkSignedToken alg S input) cands 0 := by
    unfold runSeq
    rw [if_pos (show (mkSignedToken alg S input).alg ∈ supportedAlgs from halg)]
  constructor
  · intro hmem
    rw [hrun]
    have hS : svVerify (mkSignedToken alg S input) S = true :=
      (svVerify_mkSignedToken_iff alg S input S halg).mpr rfl
    have huniq : ∀ c, svVerify (mkSignedToken alg S input) c = true → c = S :=
      fun c hc => (svVerify_mkSignedToken_iff alg S input c halg).mp hc
    have hr := runSeqLoop_found _ S hS huniq cands 0 hmem
    refine ⟨hr.1, hr.2.1, hr.2.2.1, ?_⟩
    have := hr.2.2.2
    omega
  · intro hmem
    rw [hrun]
    have hno : ∀ c, some c ∈ cands → svVerify (mkSignedToken alg S input) c = false := by
      intro c hc
      by_cases hv : svVerify (mkSignedToken alg S input) c = true
      · have hcS : c = S := (svVerify_mkSignedToken_iff alg S input c halg).mp hv
        exact absurd (hcS ▸ hc) hmem
      · exact Bool.eq_false_iff.mpr hv
    rw [runSeqLoop_no_match _ cands 0 hno, Nat.zero_add]

theorem run_finds_secret_or_exhausts_witness :
    (runSeq (mkSignedToken (chars "HS256") (chars "K") (chars "m"))
        [none, some (chars "A"), some (chars "K")]).secret = some (chars "K") ∧
    runSeq (mkSignedToken (chars "HS256") (chars "K") (chars "m"))
        [some (chars "A"), none] = ⟨BState.exhausted, false, none, 1⟩ := by
  constructor
  · exact ((run_finds_secret_or_exhausts (chars "HS256") (chars "K") (chars "m")
      [none, some (chars "A"), some (chars "K")] (by decide)).1 (by decide)).2.2.1
  · rw [(run_finds_secret_or_exhausts (chars "HS256") (chars "K") (chars "m")
      [some (chars "A"), none] (by decide)).2 (by decide)]
    rfl

/-- C4: a token whose header algorithm is outside the supported
symmetric set (`none`, `RS*`, `ES*`, …) verifies `false` for every
secret rather than throwing, and the bruteforcer reports
`UnsupportedAlgorithm` — with zero attempts and no secret — a state
distinct from `Exhausted` ("no secret found"). -/
theorem unsupported_alg_distinct_outcome (t : Token) (secret : Str)
    (cands : List (Option Str)) (k : Nat) (h : t.alg ∉ supportedAlgs) :
    svVerify t secret = false ∧
    runSeq t cands = ⟨BState.unsupportedAlgorithm, false, none, 0⟩ ∧
    runConc t cands k = ⟨BState.unsupportedAlgorithm, false, none, 0⟩ ∧
    BState.unsupportedAlgorithm ≠ BState.exhausted := by
  refine ⟨?_, ?_, ?_, by decide⟩
  · unfold svVerify
    rw [if_neg h]
  · unfold runSeq
    rw [if_neg h]
  · unfold runConc
    rw [if_neg h]

theorem unsupported_alg_distinct_outcome_witness :
    svVerify ⟨chars "RS256", chars "m", []⟩ (chars "K") = false ∧
    runSeq ⟨chars "RS256", chars "m", []⟩ [some (chars "K")] =
      ⟨BState.unsupportedAlgorithm, false, none, 0⟩ ∧
    runConc ⟨chars "RS256", chars "m", []⟩ [some (chars "K")] 16 =
      ⟨BState.unsupportedAlgorithm, false, none, 0⟩ ∧
    BState.unsupportedAlgorithm ≠ BState.exhausted :=
  unsupported_alg_distinct_outcome ⟨chars "RS256", chars "m", []⟩ (chars "K")
    [some (chars "K")] 16 (by decide)

/-- C5: the base64url segment codec normalizes padding — encoding strips
the trailing `=` padding, and decoding the padless encoding of any
string recovers the string (padding is restored before decoding). -/
theorem segment_codec_padding_roundtrip (s : Str) :
    segmentDecode (safeB64Encode s) = some s ∧
    '=' ∉ safeB64Encode s :=
  ⟨segmentDecode_safeB64Encode s, safeB64Encode_no_eq s⟩

/-- C7: for every token and fixed candidate list, every concurrency
level — in particular 1 and 16 — recovers the same secret as the
sequential scan, namely the first (lowest original stream index)
verifying candidate: concurrency invariance with a deterministic
lowest-index tie-break. -/
theorem concurrency_invariant_lowest_index (t : Token) (cands : List (Option Str)) :
    (runConc t cands 16).secret = (runConc t cands 1).secret ∧
    (∀ k, (runConc t cands k).secret = firstMatch t cands) ∧
    (runSeq t cands).secret = firstMatch t cands := by
  have hseq : (runSeq t cands).secret = firstMatch t cands := by
    unfold runSeq
    split
    · exact runSeqLoop_secret t cands 0
    · next h => exact (firstMatch_unsupported t h cands).symm
  have hconc : ∀ k, (runConc t cands k).secret = firstMatch t cands := by
    intro k
    rw [runConc_secret_eq_runSeq]
    exact hseq
  exact ⟨by rw [hconc 16, hconc 1], hconc, hseq⟩

/-- C2 (amended): a token signed with a NON-EMPTY secret `S` under a
supported symmetric algorithm decodes successfully with `S` (claims
permitting) and fails with every other non-empty secret; the empty
secret is excluded because `decode_token`'s `if verify and secret:`
skips verification entirely for it. -/
theorem sign_verify_roundtrip_nonempty (pkvs : List (Str × Json)) (S S2 alg : Str)
    (now : Int) (halg : alg ∈ hsAlgs) (hwf : (Json.obj pkvs).wf = true)
    (hclaims : claimsOk pkvs now = true) (hS : S ≠ []) :
    decodeToken (jwtEncode (Json.obj pkvs) S alg) true S now = some (Json.obj pkvs) ∧
    (S2 ≠ S → S2 ≠ [] →
      decodeToken (jwtEncode (Json.obj pkvs) S alg) true S2 now = none) := by
  constructor
  · unfold decodeToken
    rw [if_pos ⟨rfl, hS⟩, jwtDecodeVerified_jwtEncode pkvs S S alg now halg hwf,
      if_pos rfl, if_pos hclaims]
  · intro hne hS2
    unfold decodeToken
    rw [if_pos ⟨rfl, hS2⟩, jwtDecodeVerified_jwtEncode pkvs S S2 alg now halg hwf,
      if_neg hne]

theorem sign_verify_roundtrip_nonempty_witness :
    decodeToken (jwtEncode (Json.obj []) (chars "K") (chars "HS256")) true (chars "K") 0 =
      some (Json.obj []) ∧
    decodeToken (jwtEncode (Json.obj []) (chars "K") (chars "HS256")) true (chars "B") 0 =
      none :=
  ⟨(sign_verify_roundtrip_nonempty [] (chars "K") (chars "B") (chars "HS256") 0
      (by decide) emptyObj_wf rfl (by decide)).1,
   (sign_verify_roundtrip_nonempty [] (chars "K") (chars "B") (chars "HS256") 0
      (by decide) emptyObj_wf rfl (by decide)).2 (by decide) (by decide)⟩

/-- C2 counterexample: `decode_token(token, verify=True, secret="")`
with the WRONG (empty) secret still returns the payload of a token
signed with `"k"` — `if verify and secret:` treats the empty string as
falsy and skips signature verification, refuting "verifies as false with
any secret S' != S". -/
theorem empty_secret_bypasses_verification :
    chars "" ≠ chars "k" ∧
    decodeToken (createTestToken (chars "k") (chars "HS256") none 0) true (chars "") 0 =
      some (Json.obj (defaultPayload 0)) := by
  refine ⟨by decide, ?_⟩
  have hx : decodeToken (createTestToken (chars "k") (chars "HS256") none 0) true
      (chars "") 0 = jwtDecodeUnverified (createTestToken (chars "k") (chars "HS256") none 0) := by
    unfold decodeToken
    rw [if_neg]
    intro hcon
    exact hcon.2 rfl
  rw [hx,
    show createTestToken (chars "k") (chars "HS256") none 0 =
      jwtEncode (Json.obj (defaultPayload 0)) (chars "k") (chars "HS256") from rfl,
    jwtDecodeUnverified_jwtEncode (defaultPayload 0) (chars "k") (chars "HS256")
      (defaultPayload_wf 0)]

/-- C3 (amended): `analyze_token` marks the analysis invalid exactly
when the segment count differs from 3 or the first segment does not
decode to a mapping; a 3-segment token whose segments are invalid
base64url JSON is masked to `{}` by `_safe_b64decode` and stays valid.
`decode_token` (both verified and unverified) does fail on a wrong
segment count. -/
theorem analysis_failure_characterization (token : Str) (now : Int) (s : Str) :
    ((analyzeToken token now).valid = false ↔
      ¬((splitDots token).length = 3 ∧
        (safeB64Decode ((splitDots token).headD [])).isObj = true)) ∧
    ((splitDots token).length ≠ 3 →
      decodeToken token true s now = none ∧ decodeToken token false s now = none) := by
  constructor
  · rw [← analyzeToken_valid_iff token now]
    exact Bool.eq_false_iff
  · intro h3
    have hver : jwtDecodeVerified token s now = none := by
      unfold jwtDecodeVerified
      split
      · next heq => rw [heq] at h3; simp at h3
      · rfl
    have hunv : jwtDecodeUnverified token = none := by
      unfold jwtDecodeUnverified
      split
      · next heq => rw [heq] at h3; simp at h3
      · rfl
    constructor
    · unfold decodeToken
      split
      · exact hver
      · exact hunv
    · unfold decodeToken
      split
      · exact hver
      · exact hunv

theorem analysis_failure_characterization_witness :
    (analyzeToken (chars "abc.def") 0).valid = false ∧
    decodeToken (chars "abc.def") true (chars "k") 0 = none :=
  ⟨(analysis_failure_characterization (chars "abc.def") 0 (chars "k")).1.mpr (by decide),
   ((analysis_failure_characterization (chars "abc.def") 0 (chars "k")).2 (by decide)).1⟩

/-- C3 counterexample: `"abcd.abcd.x"` has three segments whose first
two are NOT valid base64url-encoded JSON (the decoded bytes are not
UTF-8), yet `analyze_token` does not fail: `_safe_b64decode` masks the
failure to `{}` and the analysis is reported valid. -/
theorem invalid_b64_segment_still_valid :
    segmentDecode (chars "abcd") = none ∧
    (analyzeToken (chars "abcd.abcd.x") 0).valid = true := ⟨rfl, rfl⟩

/-- C6: a successfully parsed token's signing input is the literal
original first two encoded segments of the compact input rejoined with
`.` — the compact input is exactly the signing input plus the signature
segment, with no re-encoding of the parsed mappings. -/
theorem signing_input_literal_segments (compact : Str) (t : ParsedToken)
    (h : tcParse compact = some t) :
    compact = tcSigningInput t ++ '.' :: t.rawSignature ∧
    tcSigningInput t = t.rawHeader ++ '.' :: t.rawPayload := by
  refine ⟨?_, rfl⟩
  unfold tcParse at h
  split at h
  · next p0 p1 p2 heq =>
    simp only [Option.bind_eq_bind, Option.bind_eq_some] at h
    obtain ⟨hs, hhs, hj, hhj, ps, hps, pj, hpj, sb, hsb, hmatch⟩ := h
    split at hmatch
    · next hk pk =>
      have ht := Option.some.inj hmatch
      subst ht
      have hjoin := joinDots_splitDots compact
      rw [heq] at hjoin
      rw [← hjoin]
      show p0 ++ '.' :: (p1 ++ '.' :: p2) = (p0 ++ '.' :: p1) ++ '.' :: p2
      simp [List.append_assoc]
    · exact absurd hmatch (by simp)
  · exact absurd h (by simp)

theorem signing_input_literal_segments_witness :
    chars "e30.e30." =
      tcSigningInput ⟨chars "e30", chars "e30", [], [], [], []⟩ ++ '.' :: [] ∧
    tcSigningInput ⟨chars "e30", chars "e30", [], [], [], []⟩ =
      chars "e30" ++ '.' :: chars "e30" :=
  signing_input_literal_segments (chars "e30.e30.")
    ⟨chars "e30", chars "e30", [], [], [], []⟩ rfl

/-- C8 (amended): `_safe_b64decode` is total — on any base64, UTF-8 or
JSON failure it returns the empty mapping `{}`, indistinguishable from
decoding a genuinely empty object — but its result is whatever JSON
value the segment holds, not necessarily a mapping. -/
theorem safe_decode_total_empty_on_failure (data : Str)
    (hfail : (segmentDecode data).bind jsonLoads = none) :
    safeB64Decode data = Json.obj [] ∧
    safeB64Decode data = safeB64Decode (safeB64Encode (dumps (Json.obj []))) := by
  have h1 : safeB64Decode data = Json.obj [] := by
    unfold safeB64Decode
    rw [hfail]
  refine ⟨h1, ?_⟩
  rw [h1, safeB64Decode_safeB64Encode_dumps (Json.obj []) emptyObj_wf]

theorem safe_decode_total_empty_on_failure_witness :
    safeB64Decode (chars "abcd") = Json.obj [] ∧
    safeB64Decode (chars "abcd") = safeB64Decode (safeB64Encode (dumps (Json.obj []))) :=
  safe_decode_total_empty_on_failure (chars "abcd") rfl

/-- C8 counterexample: `_safe_b64decode("MTIz")` succeeds and returns
the JSON number `123` — base64url of `"123"` — which is not a mapping,
refuting "for every input string, _safe_b64decode returns a mapping". -/
theorem safe_decode_not_a_mapping :
    safeB64Decode (chars "MTIz") = Json.num 123 ∧
    (safeB64Decode (chars "MTIz")).isObj = false := ⟨rfl, rfl⟩

/-- C9: on a three-segment token whose header segment decodes to a
mapping, `mutate_algorithm` re-encodes only the header — with `alg` set
to the new algorithm — and keeps the payload and signature segments as
the unchanged original substrings; when the header decodes to a
non-mapping the internal failure returns the input token unchanged. -/
theorem mutate_algorithm_frame (token tok2 newAlg p0 p1 p2 : Str)
    (h : List (Str × Json))
    (hsplit : splitDots token = [p0, p1, p2])
    (hdec : safeB64Decode p0 = Json.obj h)
    (hbad : (safeB64Decode ((splitDots tok2).headD [])).isObj = false) :
    mutateAlgorithm token newAlg =
      safeB64Encode (dumps (Json.obj (objInsert (chars "alg") (Json.str newAlg) h)))
        ++ '.' :: (p1 ++ '.' :: p2) ∧
    safeB64Decode ((splitDots (mutateAlgorithm token newAlg)).headD []) =
      Json.obj (objInsert (chars "alg") (Json.str newAlg) h) ∧
    objGet (objInsert (chars "alg") (Json.str newAlg) h) (chars "alg") =
      some (Json.str newAlg) ∧
    mutateAlgorithm tok2 newAlg = tok2 := by
  have hwfh := safeB64Decode_wf p0
  rw [hdec] at hwfh
  simp only [Json.wf, Bool.and_eq_true] at hwfh
  have hwf2 : (Json.obj (objInsert (chars "alg") (Json.str newAlg) h)).wf = true := by
    have hp := objInsert_wf (chars "alg") (Json.str newAlg) h hwfh.1 hwfh.2 rfl
    simp only [Json.wf, Bool.and_eq_true]
    exact hp
  have heq1 : mutateAlgorithm token newAlg =
      safeB64Encode (dumps (Json.obj (objInsert (chars "alg") (Json.str newAlg) h)))
        ++ '.' :: (p1 ++ '.' :: p2) := by
    simp only [mutateAlgorithm, hsplit, List.headD_cons, List.tail_cons, hdec]
    rfl
  refine ⟨heq1, ?_, objGet_objInsert (chars "alg") (Json.str newAlg) h, ?_⟩
  · rw [heq1, splitDots_append_dot _ _ (safeB64Encode_no_dot _)]
    simp only [List.headD_cons]
    exact safeB64Decode_safeB64Encode_dumps _ hwf2
  · simp only [mutateAlgorithm]
    split
    · next h2 hdec2 =>
      rw [hdec2] at hbad
      simp [Json.isObj] at hbad
    · rfl

theorem mutate_algorithm_frame_witness :
    mutateAlgorithm (chars "e30.x.y") (chars "none") =
      safeB64Encode (dumps (Json.obj (objInsert (chars "alg") (Json.str (chars "none")) [])))
        ++ '.' :: (chars "x" ++ '.' :: chars "y") ∧
    safeB64Decode ((splitDots (mutateAlgorithm (chars "e30.x.y") (chars "none"))).headD []) =
      Json.obj (objInsert (chars "alg") (Json.str (chars "none")) []) ∧
    objGet (objInsert (chars "alg") (Json.str (chars "none")) []) (chars "alg") =
      some (Json.str (chars "none")) ∧
    mutateAlgorithm (chars "MTIz") (chars "none") = chars "MTIz" :=
  mutate_algorithm_frame (chars "e30.x.y") (chars "MTIz") (chars "none")
    (chars "e30") (chars "x") (chars "y") [] rfl rfl rfl

theorem forgeHeader_wf :
    (Json.obj [(chars "alg", Json.str (chars "none")),
      (chars "typ", Json.str (chars "JWT"))]).wf = true := by
  simp only [Json.wf, keysDistinct, wfKvs, List.all_cons, List.all_nil]
  rfl

theorem splitDots_forge_form (a b : Str) (ha : '.' ∉ a) (hb : '.' ∉ b) :
    splitDots (a ++ '.' :: (b ++ ['.'])) = [a, b, []] := by
  rw [splitDots_append_dot a _ ha,
    show b ++ ['.'] = b ++ '.' :: [] from rfl,
    splitDots_append_dot b [] hb]
  rfl

/-- C10: for every payload mapping (and for the `None` default),
`forge_unsigned_token` returns a compact string of exactly three
dot-separated segments whose third (signature) segment is empty and
whose first segment decodes to the header
`{"alg": "none", "typ": "JWT"}`. -/
theorem forge_unsigned_token_shape (payload : Option (List (Str × Json))) :
    ∃ p64 : Str,
      forgeUnsignedToken payload =
        safeB64Encode (dumps (Json.obj [(chars "alg", Json.str (chars "none")),
          (chars "typ", Json.str (chars "JWT"))])) ++ '.' :: (p64 ++ ['.']) ∧
      splitDots (forgeUnsignedToken payload) =
        [safeB64Encode (dumps (Json.obj [(chars "alg", Json.str (chars "none")),
          (chars "typ", Json.str (chars "JWT"))])), p64, []] ∧
      safeB64Decode ((splitDots (forgeUnsignedToken payload)).headD []) =
        Json.obj [(chars "alg", Json.str (chars "none")),
          (chars "typ", Json.str (chars "JWT"))] := by
  have key : ∀ (tok : Str) (data : List (Str × Json)),
      tok = safeB64Encode (dumps (Json.obj [(chars "alg", Json.str (chars "none")),
          (chars "typ", Json.str (chars "JWT"))]))
        ++ '.' :: (safeB64Encode (dumps (Json.obj data)) ++ ['.']) →
      ∃ p64 : Str,
        tok = safeB64Encode (dumps (Json.obj [(chars "alg", Json.str (chars "none")),
          (chars "typ", Json.str (chars "JWT"))])) ++ '.' :: (p64 ++ ['.']) ∧
        splitDots tok =
          [safeB64Encode (dumps (Json.obj [(chars "alg", Json.str (chars "none")),
            (chars "typ", Json.str (chars "JWT"))])), p64, []] ∧
        safeB64Decode ((splitDots tok).headD []) =
          Json.obj [(chars "alg", Json.str (chars "none")),
            (chars "typ", Json.str (chars "JWT"))] := by
    intro tok data hform
    refine ⟨safeB64Encode (dumps (Json.obj data)), hform, ?_, ?_⟩
    · rw [hform, splitDots_forge_form _ _ (safeB64Encode_no_dot _) (safeB64Encode_no_dot _)]
    · rw [hform, splitDots_forge_form _ _ (safeB64Encode_no_dot _) (safeB64Encode_no_dot _)]
      simp only [List.headD_cons]
      exact safeB64Decode_safeB64Encode_dumps _ forgeHeader_wf
  match payload with
  | none => exact key (forgeUnsignedToken none) _ rfl
  | some [] => exact key (forgeUnsignedToken (some [])) _ rfl
  | some (q :: tl) => exact key (forgeUnsignedToken (some (q :: tl))) (q :: tl) rfl
